import Mathlib

/-!
# cysh: a shallow embedding of `src/main.c`

The shell reads a line (`cysh_read_line`), cuts it into tokens in place
(`cysh_split_line`, through the C library's `strtok`), and dispatches on the
first token (`cysh_execute`): one of the built-ins `cd`, `help`, `exit`, or an
external program (`cysh_launch`).

Modelling conventions.

* A C `char` is a Lean `Char`; the program only ever compares characters with
  constants (newline, NUL, the delimiters, the slash).
* Standard input is the list of characters still to be read; `getchar` takes
  its head, and answers `EOF` on the empty list, as often as it is called.
* The line buffer is a `Block`: the number of bytes allocated and the bytes
  written so far.  A store at or past the allocated size is carried out on the
  byte behind the block and its index is recorded in `overrun`, so that the
  memory safety of the program is the statement that `overrun` stays empty.
* A `char *` into the line is an offset into the block; a NULL-terminated
  `char **` is the list of its pointers, the sentinel being the end of the list.
* The `int` counters of `cysh_read_line` are integers kept in the range of a
  32-bit `int` by `wrapInt`.  `malloc` succeeds, and `realloc` succeeds unless
  the size it is given is negative: `buffersize += 1024` wraps to a negative
  number when the line reaches 2^31 - 1024 characters, and the process then ends
  with `cysh: allocation error`.  A line that `cysh_read_line` returns has fewer
  characters than that and so far fewer than 2^31 tokens; the counters of
  `cysh_split_line` are natural numbers.
* The operating system is an oracle `Env` answering `getcwd`, `chdir` and the
  fork/exec/wait sequence as a function of the effects so far; every effect of
  the shell is appended to a trace of `Event`s.  The trace lists the calls in
  their order, not the bytes that reach the descriptors: `stdout` is buffered,
  and a child that calls `exit` writes its copy of the buffer once more.
* A child shares the standard input of the shell.  What the shell reads after
  a launch is therefore an answer of the oracle: a program may read from the
  descriptor, and the `exit` of the child after a failed `execvp` flushes the
  buffers it inherited, which moves a seekable input back, so that the shell
  reads some lines twice.
* A launched program ends.
* A C loop whose number of iterations is not the length of a list is a
  function with fuel, returning `none` when the fuel runs out; the theorems
  show which amount of fuel is enough.
-/

namespace Cysh

/-! ## Memory -/

/-- The byte that ends a C string. -/
def NUL : Char := Char.ofNat 0

/-- A heap block: `size` bytes were allocated, `cells` are the bytes written so
far (from index 0), `overrun` lists the indices of stores outside the block. -/
structure Block where
  size : Nat
  cells : List Char
  overrun : List Nat
deriving DecidableEq

/-- The value an `int` holds after an addition with the exact result `n`: the
result modulo 2^32, in the range from -2^31 to 2^31 - 1. -/
def wrapInt (n : Int) : Int :=
  (n + 2147483648) % 4294967296 - 2147483648

/-- The block `malloc (size)` returns: nothing written yet. -/
def malloc (size : Int) : Block :=
  { size := size.toNat, cells := [], overrun := [] }

/-- The call `realloc (b, size)` with an `int` size.  The size is converted to
`size_t`: a negative one asks for more than 2^63 bytes and the call returns
NULL (`none`).  Otherwise the block keeps its contents and has the new size. -/
def realloc (b : Block) (size : Int) : Option Block :=
  if size < 0 then none else some { b with size := size.toNat }

/-- The assignment `b[i] = c`.  Index `i` is at most the number of bytes
written so far in every use the program makes of it. -/
def Block.store (b : Block) (i : Nat) (c : Char) : Block :=
  { b with
    cells := b.cells.take i ++ c :: b.cells.drop (i + 1)
    overrun := if i < b.size then b.overrun else b.overrun ++ [i] }

/-- The C string that starts at offset `p`: the bytes up to the first NUL. -/
def cstr (cells : List Char) (p : Nat) : List Char :=
  (cells.drop p).takeWhile (fun c => c ≠ NUL)

/-- The C library's `strlen` at offset `p`. -/
def strlen (cells : List Char) (p : Nat) : Nat :=
  (cstr cells p).length

/-! ## Line reader -/

def CYSH_RL_BUFSIZE : Int := 1024

/-- The `while (1)` loop of `cysh_read_line`; the first argument is standard
input, whose head is what `getchar` returns next (`EOF` when it is empty).  The
result is `none` when `realloc` returned NULL: the function has then printed
`cysh: allocation error` and called `exit (EXIT_FAILURE)`. -/
def cysh_read_line_loop : List Char → Int → Int → Block → Option (Block × List Char)
  | [], _, position, buffer => some (buffer.store position.toNat NUL, [])
  | c :: rest, buffersize, position, buffer =>
    if c = '\n' then
      some (buffer.store position.toNat NUL, rest)
    else
      let buffer := buffer.store position.toNat c
      let position := wrapInt (position + 1)
      if position ≥ buffersize then
        let buffersize := wrapInt (buffersize + CYSH_RL_BUFSIZE)
        match realloc buffer buffersize with
        | none => none
        | some buffer => cysh_read_line_loop rest buffersize position buffer
      else
        cysh_read_line_loop rest buffersize position buffer

/-- The function `cysh_read_line`: the line block and what is left of standard
input, or `none` when it has ended the process with an allocation error. -/
def cysh_read_line (stdin : List Char) : Option (Block × List Char) :=
  cysh_read_line_loop stdin CYSH_RL_BUFSIZE 0 (malloc CYSH_RL_BUFSIZE)

/-! ## Tokenizer -/

def CYSH_TOK_BUFSIZE : Nat := 64

/-- The delimiter set `" \t\r\n\a"`. -/
def CYSH_TOK_DELIM : List Char := [' ', '\t', '\r', '\n', Char.ofNat 7]

/-- The C library's `strspn`: how many leading bytes of the string at `p` are in `accept`. -/
def strspn (cells : List Char) (p : Nat) (accept : List Char) : Nat :=
  ((cstr cells p).takeWhile (fun c => decide (c ∈ accept))).length

/-- The C library's `strcspn`: how many leading bytes of the string at `p` are not in `reject`. -/
def strcspn (cells : List Char) (p : Nat) (reject : List Char) : Nat :=
  ((cstr cells p).takeWhile (fun c => decide (c ∉ reject))).length

/-- The C library's `strtok`, with its hidden pointer made explicit: `s` is
the string to scan (the line on the first call, the saved pointer on the calls
with a NULL first argument).  The result is the token (`none` is NULL), the
block, in which the delimiter ending the token has become NUL, and the pointer
saved for the next call. -/
def strtok (b : Block) (s : Nat) (delim : List Char) : Option Nat × Block × Nat :=
  let s := s + strspn b.cells s delim
  if b.cells.getD s NUL = NUL then
    (none, b, s)
  else
    let e := s + strcspn b.cells s delim
    if b.cells.getD e NUL = NUL then
      (some s, b, e)
    else
      (some s, b.store e NUL, e + 1)

/-- What `cysh_split_line` returns: the pointers `tokens[0 .. position)`, the
entry `tokens[position]` being NULL, the number of entries allocated, and the
line block as `strtok` left it. -/
structure Argv where
  line : Block
  tokens : List Nat
  buffersize : Nat
deriving DecidableEq

/-- The `while (token != NULL)` loop of `cysh_split_line`; `position` is the
length of `tokens`, `save` is the pointer `strtok` keeps between calls. -/
def cysh_split_line_loop :
    Nat → Block → Nat → Option Nat → List Nat → Nat → Option Argv
  | 0, _, _, _, _, _ => none
  | _ + 1, line, _, none, tokens, buffersize =>
    some { line := line, tokens := tokens, buffersize := buffersize }
  | fuel + 1, line, save, some token, tokens, buffersize =>
    let tokens := tokens ++ [token]
    let position := tokens.length
    let buffersize :=
      if position ≥ buffersize then buffersize + CYSH_TOK_BUFSIZE else buffersize
    let (token, line, save) := strtok line save CYSH_TOK_DELIM
    cysh_split_line_loop fuel line save token tokens buffersize

/-- The function `cysh_split_line`.  Each round of the loop stores one token and
each token has at least one byte, so the length of the block is fuel enough. -/
def cysh_split_line (line : Block) : Option Argv :=
  let (token, line1, save) := strtok line 0 CYSH_TOK_DELIM
  cysh_split_line_loop (line.cells.length + 1) line1 save token [] CYSH_TOK_BUFSIZE

/-- The strings an argument vector points to. -/
def Argv.strings (a : Argv) : List (List Char) :=
  a.tokens.map (cstr a.line.cells)

/-! ## The operating system and the effects of the shell -/

/-- What one `waitpid (pid, &status, WUNTRACED)` reports about the child. -/
inductive Wait where
  | stopped
  | exited (code : Nat)
  | signaled (sig : Nat)
deriving DecidableEq

def WIFEXITED : Wait → Bool
  | .exited _ => true
  | _ => false

def WIFSIGNALED : Wait → Bool
  | .signaled _ => true
  | _ => false

/-- How a child ends: by `exit`, or killed by a signal. -/
inductive Ended where
  | exited (code : Nat)
  | signaled (sig : Nat)
deriving DecidableEq

/-- The report `waitpid` gives of a child that has ended. -/
def Ended.report : Ended → Wait
  | .exited code => .exited code
  | .signaled sig => .signaled sig

/-- What `fork` and the child do for one command: `fork` fails, or a child
runs, whose `execvp` succeeds or not, which is reported stopped `stops` times
and then ends as `last` says.  Every child ends.  `stdin` is what the shell
will read from standard input once the child has ended. -/
inductive Spawn where
  | forkFailed
  | child (execOk : Bool) (stops : Nat) (last : Ended) (stdin : List Char)
deriving DecidableEq

/-- One call of the shell, or of the child as long as it runs the code of the
shell; `exit` is the call of the child whose `execvp` failed, which flushes the
buffers the child inherited: it writes once more the text the shell had printed
and not yet flushed, and moves a seekable standard input back. -/
inductive Event where
  | stdout (text : List Char)
  | stderr (text : List Char)
  | perror (s : List Char)
  | chdir (path : List Char) (ok : Bool)
  | fork (ok : Bool)
  | execvp (file : List Char) (argv : List (List Char)) (ok : Bool)
  | exit (status : Nat)
  | waitpid (status : Wait)
deriving DecidableEq

/-- The operating system: each answer may depend on all effects so far.
`getcwd` answers whether it succeeded and the string then found in `cwd`;
`spawn` is asked with the argument strings and the input the shell has not read
yet. -/
structure Env where
  getcwd : List Event → Bool × List Char
  chdir : List Event → List Char → Bool
  spawn : List Event → List (List Char) → List Char → Spawn

/-- The state of the shell's surroundings: standard input still unread and the
effects so far, oldest first. -/
structure World where
  stdin : List Char
  trace : List Event
deriving DecidableEq

def World.emit (w : World) (e : Event) : World :=
  { w with trace := w.trace ++ [e] }

/-! ## Process launcher -/

def EXIT_FAILURE : Nat := 1

/-- The reports of the successive `waitpid` calls on a child: it is stopped
`stops` times and then has ended, with `EXIT_FAILURE` when its `execvp` failed. -/
def waitReports : Spawn → List Wait
  | .forkFailed => []
  | .child true stops last _ => List.replicate stops Wait.stopped ++ [last.report]
  | .child false stops _ _ => List.replicate stops Wait.stopped ++ [Wait.exited EXIT_FAILURE]

/-- The `do ... while (!WIFEXITED (status) && !WIFSIGNALED (status))` loop of
`cysh_launch`, on the reports still to come; the last one is of a child that
has ended, so the loop stops there. -/
def cysh_launch_wait : List Wait → World → World
  | [], w => w
  | status :: later, w =>
    let w := w.emit (.waitpid status)
    if !WIFEXITED status && !WIFSIGNALED status then cysh_launch_wait later w else w

/-- The function `cysh_launch`, as the shell (the parent) sees it.  The calls of
the child are in the same trace: its `execvp` and, when that fails, its
`perror` and its `exit (EXIT_FAILURE)`.  The standard input of the shell is
afterwards what the oracle says. -/
def cysh_launch (env : Env) (line : Block) (args : List Nat) (w : World) :
    Int × Block × World :=
  let argv := args.map (cstr line.cells)
  match env.spawn w.trace argv w.stdin with
  | .forkFailed => (1, line, (w.emit (.fork false)).emit (.perror "cysh".toList))
  | .child execOk stops last stdin =>
    let w := w.emit (.fork true)
    let w := w.emit (.execvp (argv.headD []) argv execOk)
    let w := if execOk then w else (w.emit (.perror "cysh".toList)).emit (.exit EXIT_FAILURE)
    let w := cysh_launch_wait (waitReports (.child execOk stops last stdin)) w
    (1, line, { w with stdin := stdin })

/-! ## Built-ins and dispatcher -/

def builtin_str : List (List Char) := ["cd".toList, "help".toList, "exit".toList]

def cysh_num_builtins : Nat := builtin_str.length

/-- Stores the bytes `cs` at the indices `i`, `i + 1`, ... -/
def Block.storeAll (b : Block) (i : Nat) : List Char → Block
  | [] => b
  | c :: cs => (b.store i c).storeAll (i + 1) cs

/-- The C library's `strcat (dest, src)`: the bytes of `src` and a NUL are
written from the terminator of `dest` on; it returns `dest`. -/
def strcat (b : Block) (dest : Nat) (src : List Char) : Block × Nat :=
  (b.storeAll (dest + strlen b.cells dest) (src ++ [NUL]), dest)

/-- The function `cysh_cd`.  `args[1][strlen (args[1]) - 1]` is read at a
natural-number index: a token has at least one byte. -/
def cysh_cd (env : Env) (line : Block) (args : List Nat) (w : World) :
    Int × Block × World :=
  match args.get? 1 with
  | none => (1, line, w.emit (.stderr "cysh: expected argument to \"cd\"\n".toList))
  | some a1 =>
    let (line, dir) :=
      if line.cells.get? (a1 + strlen line.cells a1 - 1) = some '/' then (line, a1)
      else strcat line a1 "/".toList
    let ok := env.chdir w.trace (cstr line.cells dir)
    let w := w.emit (.chdir (cstr line.cells dir) ok)
    (1, line, if ok then w else w.emit (.perror "cysh".toList))

/-- The function `cysh_help`. -/
def cysh_help (_ : Env) (line : Block) (_ : List Nat) (w : World) :
    Int × Block × World :=
  let w := w.emit (.stdout "Cyklan's CySH\n".toList)
  let w := w.emit (.stdout "Type program names and arguments, and hit enter\n".toList)
  let w := w.emit (.stdout "The follwing commands are built in:\n".toList)
  let w := builtin_str.foldl (fun w name => w.emit (.stdout ('\t' :: name ++ ['\n']))) w
  let w := w.emit (.stdout "Use the man command for information on other programs.\n".toList)
  (1, line, w)

/-- The function `cysh_exit`. -/
def cysh_exit (_ : Env) (line : Block) (_ : List Nat) (w : World) :
    Int × Block × World :=
  (0, line, w)

def builtin_func : List (Env → Block → List Nat → World → Int × Block × World) :=
  [cysh_cd, cysh_help, cysh_exit]

/-- The `for` loop of `cysh_execute` over the rest of the built-in table, and
the call of `cysh_launch` behind it. -/
def cysh_execute_for (env : Env) (line : Block) (args : List Nat) (w : World) (arg0 : Nat) :
    List (List Char) → List (Env → Block → List Nat → World → Int × Block × World) →
      Int × Block × World
  | name :: names, func :: funcs =>
    if cstr line.cells arg0 = name then func env line args w
    else cysh_execute_for env line args w arg0 names funcs
  | _, _ => cysh_launch env line args w

/-- The function `cysh_execute`. -/
def cysh_execute (env : Env) (line : Block) (args : List Nat) (w : World) :
    Int × Block × World :=
  match args with
  | [] => (1, line, w)
  | arg0 :: _ => cysh_execute_for env line args w arg0 builtin_str builtin_func

/-! ## The loop -/

/-- How a part of the shell ends: it returns a value, or it has called `exit`. -/
inductive Run (α : Type) where
  | done (value : α)
  | exit (status : Nat) (w : World)
deriving DecidableEq

/-- One round of the `do ... while (status)` loop of `cysh_loop`: the status and
the world after it, or the end of the process in `cysh_read_line`, which has
then written its complaint to the error stream (how much of the input it had
read by then is not recorded); `none` if `cysh_split_line` did not return. -/
def cysh_loop_body (env : Env) (w : World) : Option (Run (Int × World)) :=
  let (ok, cwd) := env.getcwd w.trace
  let w := if ok then w else w.emit (.stdout "getcwd error\n".toList)
  let w := w.emit (.stdout (cwd ++ "> ".toList))
  match cysh_read_line w.stdin with
  | none => some (.exit EXIT_FAILURE (w.emit (.stderr "cysh: allocation error\n".toList)))
  | some (line, stdin) =>
    let w := { w with stdin := stdin }
    match cysh_split_line line with
    | none => none
    | some args =>
      let (status, _, w) := cysh_execute env args.line args.tokens w
      some (.done (status, w))

/-- The function `cysh_loop`, run for at most `fuel` rounds: the world in which
it returns, or the end of the process; `none` if neither has happened by then. -/
def cysh_loop (env : Env) : Nat → World → Option (Run World)
  | 0, _ => none
  | fuel + 1, w =>
    match cysh_loop_body env w with
    | none => none
    | some (.exit status w) => some (.exit status w)
    | some (.done (status, w)) => if status ≠ 0 then cysh_loop env fuel w else some (.done w)

/-! ## Specification-side definitions -/

/-- The characters of `stdin` before its first newline. -/
def firstLine (stdin : List Char) : List Char :=
  stdin.takeWhile (fun c => c ≠ '\n')

/-- What follows the first newline of `stdin` (nothing when there is none). -/
def afterFirstLine (stdin : List Char) : List Char :=
  (stdin.dropWhile (fun c => c ≠ '\n')).tail

/-- A delimiter in the words of the specification: space, tab, carriage return,
newline, or BEL. -/
def isDelimiter (c : Char) : Bool :=
  c = ' ' || c = '\t' || c = '\r' || c = '\n' || c = Char.ofNat 7

/-- The maximal runs of non-delimiter characters of a line, from left to right:
the pieces between delimiters, without the empty ones. -/
def maximalRuns (l : List Char) : List (List Char) :=
  (l.splitOnP isDelimiter).filter (fun t => !t.isEmpty)

/-- One call of `strtok` on the saved pointer followed by the loop of
`cysh_split_line`: the state of that function between two tokens. -/
def splitFrom (fuel : Nat) (line : Block) (save : Nat) (tokens : List Nat) (buffersize : Nat) :
    Option Argv :=
  let (token, line, save) := strtok line save CYSH_TOK_DELIM
  cysh_split_line_loop fuel line save token tokens buffersize

/-- The state of `cysh_split_line` between two tokens: what is left of the line
is cut into its maximal runs, and nothing else of the block changes. -/
def SplitPost (pre rest tail : List Char) (size : Nat) (ov : List Nat) (tokens : List Nat)
    (result : Option Argv) : Prop :=
  ∃ mid newtoks bs1 ov1,
    result = some { line := { size := size, cells := pre ++ mid ++ NUL :: tail, overrun := ov1 },
                    tokens := tokens ++ newtoks, buffersize := bs1 } ∧
    mid.length = rest.length ∧
    newtoks.map (cstr (pre ++ mid ++ NUL :: tail)) = maximalRuns rest ∧
    (∀ p ∈ newtoks, pre.length ≤ p ∧
      p + strlen (pre ++ mid ++ NUL :: tail) p ≤ pre.length + rest.length) ∧
    tokens.length + newtoks.length < bs1 ∧
    (pre.length + rest.length ≤ size → ov1 = ov)

/-- The world after `cysh_cd` has called `chdir (path)`. -/
def chdirWorld (env : Env) (path : List Char) (w : World) : World :=
  if env.chdir w.trace path then w.emit (.chdir path true)
  else (w.emit (.chdir path false)).emit (.perror "cysh".toList)

/-- The prompt of one round of `cysh_loop`, with the complaint before it when
`getcwd` failed. -/
def promptWorld (env : Env) (w : World) : World :=
  let (ok, cwd) := env.getcwd w.trace
  (if ok then w else w.emit (.stdout "getcwd error\n".toList)).emit
    (.stdout (cwd ++ "> ".toList))

/-- The trace after the prompt of one round, from the trace before it. -/
def promptTrace (env : Env) (trace : List Event) : List Event :=
  (promptWorld env { stdin := [], trace := trace }).trace

/-- The lines `cysh_help` prints. -/
def helpBanner : List Event :=
  [.stdout "Cyklan's CySH\n".toList,
   .stdout "Type program names and arguments, and hit enter\n".toList,
   .stdout "The follwing commands are built in:\n".toList,
   .stdout "\tcd\n".toList, .stdout "\thelp\n".toList, .stdout "\texit\n".toList,
   .stdout "Use the man command for information on other programs.\n".toList]

/-- The effects expected of the input `help`, `cd /tmp`, `exit`: a prompt and
the help banner, a prompt and the successful `chdir ("/tmp/")`, a prompt. -/
def scenarioTrace (env : Env) : List Event :=
  promptTrace env
    (promptTrace env (promptTrace env [] ++ helpBanner) ++ [.chdir "/tmp/".toList true])

/-- The tokens of the next input line, as the tokenizer sees it: the maximal
runs of the line up to its first NUL. -/
def nextCommand (stdin : List Char) : List (List Char) :=
  maximalRuns ((firstLine stdin).takeWhile (fun c => c ≠ NUL))

/-- Standard input without its first `k` lines. -/
def dropLines : Nat → List Char → List Char
  | 0, stdin => stdin
  | k + 1, stdin => dropLines k (afterFirstLine stdin)

/-- The calls of `cysh_launch` and of the child. -/
def isLaunch : Event → Bool
  | .fork _ => true
  | .execvp _ _ _ => true
  | .exit _ => true
  | .waitpid _ => true
  | _ => false

/-- The number of characters at which `cysh_read_line` gives up: 2^31 - 1024. -/
def lineLimit : Nat := 2147482624

/-- The launches of `env` leave alone what the shell has not read yet. -/
def InputUntouched (env : Env) : Prop :=
  ∀ trace argv stdin execOk stops last stdin1,
    env.spawn trace argv stdin = .child execOk stops last stdin1 → stdin1 = stdin

/-- An operating system in which every call succeeds: the working directory is
reported as `/`, every program runs and exits with status 0, and no launch
touches the input. -/
def quietEnv : Env :=
  { getcwd := fun _ => (true, "/".toList)
    chdir := fun _ _ => true
    spawn := fun _ _ stdin => .child true 0 (.exited 0) stdin }

/-- An operating system whose standard input is a file small enough to be in
the buffer of the shell at once: no program is found, and the `exit` of the
child moves the file back to what the shell has not read yet, so that the shell
reads these characters a second time. -/
def rewindEnv : Env :=
  { getcwd := fun _ => (true, "/".toList)
    chdir := fun _ _ => true
    spawn := fun _ _ stdin => .child false 0 (.exited 1) (stdin ++ stdin) }

/-! ## Memory lemmas -/

theorem store_end (b : Block) (c : Char) :
    b.store b.cells.length c =
      { size := b.size, cells := b.cells ++ [c],
        overrun := if b.cells.length < b.size then b.overrun else b.overrun ++ [b.cells.length] } := by
  simp [Block.store]

theorem store_mid (size : Nat) (pre post : List Char) (ov : List Nat) (c d : Char) :
    ({ size := size, cells := pre ++ c :: post, overrun := ov } : Block).store pre.length d =
      { size := size, cells := pre ++ d :: post,
        overrun := if pre.length < size then ov else ov ++ [pre.length] } := by
  simp [Block.store, List.take_append_eq_append_take, List.drop_append_eq_append_drop]

theorem cstr_mid (pre s tail : List Char) (h : ∀ c ∈ s, c ≠ NUL) :
    cstr (pre ++ s ++ NUL :: tail) pre.length = s := by
  unfold cstr
  rw [List.append_assoc, List.drop_left]
  rw [List.takeWhile_append_of_pos (by simpa using h)]
  simp

theorem getD_mid (pre post : List Char) (c d : Char) :
    (pre ++ c :: post).getD pre.length d = c := by
  induction pre with
  | nil => rfl
  | cons x xs ih => simpa using ih

/-! ## Line reader -/

theorem firstLine_no_newline (stdin : List Char) : ∀ c ∈ firstLine stdin, c ≠ '\n' := by
  intro c hc
  have := List.mem_takeWhile_imp hc
  simpa using this

theorem firstLine_split (stdin : List Char) :
    stdin = firstLine stdin ++ '\n' :: afterFirstLine stdin ∨
      (stdin = firstLine stdin ∧ afterFirstLine stdin = []) := by
  induction stdin with
  | nil => right; simp [firstLine, afterFirstLine]
  | cons c rest ih =>
    by_cases hc : c = '\n'
    · left; simp [firstLine, afterFirstLine, hc]
    · rcases ih with h | ⟨h1, h2⟩
      · left
        simp only [firstLine, afterFirstLine] at h ⊢
        simp only [ne_eq, hc, not_false_eq_true, decide_True, List.takeWhile_cons_of_pos,
          List.dropWhile_cons_of_pos, List.cons_append]
        exact congrArg _ h
      · right
        simp only [firstLine, afterFirstLine] at h1 h2 ⊢
        simp only [ne_eq, hc, not_false_eq_true, decide_True, List.takeWhile_cons_of_pos,
          List.dropWhile_cons_of_pos]
        exact ⟨congrArg _ h1, h2⟩

theorem wrapInt_small (n : Int) (h0 : 0 ≤ n) (h1 : n ≤ 2147483647) : wrapInt n = n := by
  unfold wrapInt
  omega

theorem store_position (b : Block) (c : Char) (h : b.cells.length < b.size) :
    b.store (Int.toNat (b.cells.length : Int)) c =
      { size := b.size, cells := b.cells ++ [c], overrun := b.overrun } := by
  rw [Int.toNat_ofNat, store_end, if_pos h]

/-- The loop of `cysh_read_line` from a state in which the buffer is
`1024 * (n / 1024 + 1)` bytes large and holds `n` characters: the line is
returned when it stays below the limit, and the process ends otherwise. -/
theorem read_line_loop_spec (stdin : List Char) :
    ∀ (buffer : Block), buffer.cells.length < lineLimit →
      buffer.size = 1024 * (buffer.cells.length / 1024 + 1) → buffer.overrun = [] →
      cysh_read_line_loop stdin (1024 * ((buffer.cells.length : Int) / 1024 + 1))
          (buffer.cells.length : Int) buffer =
        if buffer.cells.length + (firstLine stdin).length < lineLimit then
          some ({ size := 1024 * ((buffer.cells.length + (firstLine stdin).length) / 1024 + 1),
                  cells := buffer.cells ++ firstLine stdin ++ [NUL],
                  overrun := [] }, afterFirstLine stdin)
        else none := by
  induction stdin with
  | nil =>
    intro buf hlim hsize hov
    have hlt : buf.cells.length < buf.size := by omega
    have hfl : firstLine [] = [] := rfl
    have hal : afterFirstLine [] = [] := rfl
    rw [cysh_read_line_loop, store_position buf NUL hlt, hfl, hal, hov, List.length_nil,
      Nat.add_zero, if_pos hlim, List.append_nil, hsize]
  | cons c rest ih =>
    intro buf hlim hsize hov
    have hlt : buf.cells.length < buf.size := by omega
    by_cases hc : c = '\n'
    · have hfl : firstLine (c :: rest) = [] := by simp [firstLine, hc]
      have hal : afterFirstLine (c :: rest) = rest := by simp [afterFirstLine, hc]
      rw [cysh_read_line_loop, if_pos hc, store_position buf NUL hlt, hfl, hal, hov,
        List.length_nil, Nat.add_zero, if_pos hlim, List.append_nil, hsize]
    · have hfl : firstLine (c :: rest) = c :: firstLine rest := by
        simp [firstLine, hc]
      have hal : afterFirstLine (c :: rest) = afterFirstLine rest := by
        simp [afterFirstLine, hc]
      have hpos : wrapInt ((buf.cells.length : Int) + 1) = ((buf.cells.length + 1 : Nat) : Int) := by
        rw [wrapInt_small _ (by omega) (by unfold lineLimit at hlim; omega)]
        push_cast
        rfl
      rw [cysh_read_line_loop, if_neg hc]
      dsimp only
      rw [store_position buf c hlt, hov, hpos, hfl, hal, List.length_cons]
      unfold lineLimit at hlim ih ⊢
      by_cases hge : ((buf.cells.length + 1 : Nat) : Int) ≥
          1024 * ((buf.cells.length : Int) / 1024 + 1)
      · rw [if_pos hge]
        by_cases hfull : buf.cells.length + 1 = 2147482624
        · have hneg : wrapInt (1024 * ((buf.cells.length : Int) / 1024 + 1) + CYSH_RL_BUFSIZE) < 0 := by
            unfold wrapInt CYSH_RL_BUFSIZE
            omega
          have hre : ∀ b : Block, realloc b
              (wrapInt (1024 * ((buf.cells.length : Int) / 1024 + 1) + CYSH_RL_BUFSIZE)) = none := by
            intro b
            rw [realloc, if_pos hneg]
          rw [hre, if_neg (by omega)]
        · have hsz : wrapInt (1024 * ((buf.cells.length : Int) / 1024 + 1) + CYSH_RL_BUFSIZE) =
              1024 * (((buf.cells.length + 1 : Nat) : Int) / 1024 + 1) := by
            rw [wrapInt_small _ (by unfold CYSH_RL_BUFSIZE; omega)
              (by unfold CYSH_RL_BUFSIZE; omega)]
            unfold CYSH_RL_BUFSIZE
            omega
          have hnn : ¬ (1024 * (((buf.cells.length + 1 : Nat) : Int) / 1024 + 1) < 0) := by omega
          rw [hsz, realloc, if_neg hnn]
          dsimp only
          have h := ih
            { size := (1024 * (((buf.cells.length + 1 : Nat) : Int) / 1024 + 1)).toNat,
              cells := buf.cells ++ [c], overrun := [] }
            (by simp only [List.length_append, List.length_singleton]; omega)
            (by simp only [List.length_append, List.length_singleton]; omega) rfl
          simp only [List.length_append, List.length_singleton] at h
          rw [h]
          have hlen : buf.cells.length + 1 + (firstLine rest).length =
              buf.cells.length + ((firstLine rest).length + 1) := by omega
          simp only [hlen, List.append_assoc, List.singleton_append]
      · rw [if_neg hge]
        have hbs : (1024 : Int) * ((buf.cells.length : Int) / 1024 + 1) =
            1024 * (((buf.cells.length + 1 : Nat) : Int) / 1024 + 1) := by omega
        rw [hbs]
        have h := ih { size := buf.size, cells := buf.cells ++ [c], overrun := [] }
          (by simp only [List.length_append, List.length_singleton]; omega)
          (by simp only [List.length_append, List.length_singleton]; omega) rfl
        simp only [List.length_append, List.length_singleton] at h
        rw [h]
        have hlen : buf.cells.length + 1 + (firstLine rest).length =
            buf.cells.length + ((firstLine rest).length + 1) := by omega
        simp only [hlen, List.append_assoc, List.singleton_append]

/-- The function `cysh_read_line` returns the first line of its input when that
has fewer than `lineLimit` characters, and ends the process otherwise. -/
theorem read_line_spec (stdin : List Char) :
    cysh_read_line stdin =
      if (firstLine stdin).length < lineLimit then
        some ({ size := 1024 * ((firstLine stdin).length / 1024 + 1),
                cells := firstLine stdin ++ [NUL],
                overrun := [] }, afterFirstLine stdin)
      else none := by
  have h := read_line_loop_spec stdin (malloc CYSH_RL_BUFSIZE) (by decide) (by decide) rfl
  simpa [malloc, cysh_read_line, CYSH_RL_BUFSIZE] using h

theorem read_line_short (stdin : List Char) (h : (firstLine stdin).length < lineLimit) :
    cysh_read_line stdin =
      some ({ size := 1024 * ((firstLine stdin).length / 1024 + 1),
              cells := firstLine stdin ++ [NUL],
              overrun := [] }, afterFirstLine stdin) := by
  rw [read_line_spec, if_pos h]

theorem read_line_long (stdin : List Char) (h : lineLimit ≤ (firstLine stdin).length) :
    cysh_read_line stdin = none := by
  rw [read_line_spec, if_neg (by omega)]

/-! ## Tokenizer -/

theorem mem_delim_iff (c : Char) : c ∈ CYSH_TOK_DELIM ↔ isDelimiter c = true := by
  simp only [CYSH_TOK_DELIM, isDelimiter, List.mem_cons, List.mem_singleton, Bool.or_eq_true,
    decide_eq_true_eq, List.not_mem_nil, or_false]
  tauto

theorem delimiter_ne_NUL {c : Char} (h : isDelimiter c = true) : c ≠ NUL := by
  intro hc
  rw [hc] at h
  revert h
  decide

theorem maximalRuns_example :
    maximalRuns "  ls -l\t/tmp \n".toList = ["ls".toList, "-l".toList, "/tmp".toList] := by
  decide

theorem maximalRuns_nil : maximalRuns [] = [] := by
  simp [maximalRuns]

theorem maximalRuns_delims (d l : List Char) (hd : ∀ c ∈ d, isDelimiter c = true) :
    maximalRuns (d ++ l) = maximalRuns l := by
  induction d with
  | nil => rfl
  | cons x xs ih =>
    have hx : isDelimiter x = true := hd x (List.mem_cons_self _ _)
    have := ih (fun c hc => hd c (List.mem_cons_of_mem _ hc))
    simp only [maximalRuns, List.cons_append, List.splitOnP_cons, hx, if_true] at this ⊢
    simpa using this

theorem maximalRuns_token (t r : List Char) (c : Char) (ht : t ≠ [])
    (hnd : ∀ x ∈ t, isDelimiter x = false) (hc : isDelimiter c = true) :
    maximalRuns (t ++ c :: r) = t :: maximalRuns r := by
  unfold maximalRuns
  rw [List.splitOnP_first isDelimiter t (by simpa using hnd) c hc r]
  simp [List.filter_cons, ht]

theorem maximalRuns_single (t : List Char) (ht : t ≠ [])
    (hnd : ∀ x ∈ t, isDelimiter x = false) : maximalRuns t = [t] := by
  unfold maximalRuns
  rw [List.splitOnP_eq_single isDelimiter t (by simpa using hnd)]
  simp [List.filter_cons, ht]

/-- Every line is all delimiters, or starts with delimiters, then a token, then
nothing or a delimiter. -/
theorem line_decompose (rest : List Char) :
    (∀ c ∈ rest, isDelimiter c = true) ∨
      ∃ d t r, rest = d ++ t ++ r ∧ (∀ c ∈ d, isDelimiter c = true) ∧ t ≠ [] ∧
        (∀ c ∈ t, isDelimiter c = false) ∧
        (r = [] ∨ ∃ c r3, r = c :: r3 ∧ isDelimiter c = true) := by
  induction rest with
  | nil => left; simp
  | cons x xs ih =>
    by_cases hx : isDelimiter x = true
    · rcases ih with h | ⟨d, t, r, h1, h2, h3, h4, h5⟩
      · left
        intro c hc
        rcases List.mem_cons.mp hc with rfl | hc
        · exact hx
        · exact h c hc
      · right
        refine ⟨x :: d, t, r, by simp [h1], ?_, h3, h4, h5⟩
        intro c hc
        rcases List.mem_cons.mp hc with rfl | hc
        · exact hx
        · exact h2 c hc
    · have hx' : isDelimiter x = false := by simpa using hx
      right
      rcases ih with h | ⟨d, t, r, h1, h2, h3, h4, h5⟩
      · refine ⟨[], [x], xs, by simp, by simp, by simp, by simpa using hx', ?_⟩
        cases xs with
        | nil => left; rfl
        | cons c r3 => right; exact ⟨c, r3, rfl, h c (List.mem_cons_self _ _)⟩
      · cases d with
        | nil =>
          refine ⟨[], x :: t, r, by simp [h1], by simp, by simp, ?_, h5⟩
          intro c hc
          rcases List.mem_cons.mp hc with rfl | hc
          · exact hx'
          · exact h4 c hc
        | cons c d' =>
          refine ⟨[], [x], c :: d' ++ t ++ r, by simp [h1], by simp, by simp,
            by simpa using hx', ?_⟩
          right
          exact ⟨c, d' ++ t ++ r, by simp, h2 c (List.mem_cons_self _ _)⟩

theorem strtok_none (b : Block) (pre d tail : List Char)
    (hcells : b.cells = pre ++ d ++ NUL :: tail) (hd : ∀ c ∈ d, isDelimiter c = true) :
    strtok b pre.length CYSH_TOK_DELIM = (none, b, pre.length + d.length) := by
  have hc : cstr b.cells pre.length = d := by
    rw [hcells]
    exact cstr_mid pre d tail (fun c hc => delimiter_ne_NUL (hd c hc))
  have hspn : strspn b.cells pre.length CYSH_TOK_DELIM = d.length := by
    unfold strspn
    rw [hc, List.takeWhile_eq_self_iff.mpr]
    intro c hc
    simpa [mem_delim_iff] using hd c hc
  have hget : b.cells.getD (pre.length + d.length) NUL = NUL := by
    rw [hcells, ← List.length_append]
    exact getD_mid _ _ _ _
  simp only [strtok, hspn, hget, if_true]

theorem strtok_some (size : Nat) (ov : List Nat) (pre d t tail : List Char) (x : Char)
    (hd : ∀ c ∈ d, isDelimiter c = true) (ht : t ≠ [])
    (hnd : ∀ c ∈ t, isDelimiter c = false) (hnn : ∀ c ∈ t, c ≠ NUL)
    (hx : x = NUL ∨ isDelimiter x = true) :
    strtok { size := size, cells := pre ++ d ++ t ++ x :: tail, overrun := ov } pre.length
        CYSH_TOK_DELIM =
      if x = NUL then
        (some (pre.length + d.length),
          { size := size, cells := pre ++ d ++ t ++ x :: tail, overrun := ov },
          pre.length + d.length + t.length)
      else
        (some (pre.length + d.length),
          { size := size, cells := pre ++ d ++ t ++ NUL :: tail,
            overrun := if pre.length + d.length + t.length < size then ov
              else ov ++ [pre.length + d.length + t.length] },
          pre.length + d.length + t.length + 1) := by
  obtain ⟨h0, t', rfl⟩ : ∃ h0 t', t = h0 :: t' := by
    cases t with
    | nil => exact absurd rfl ht
    | cons a l => exact ⟨a, l, rfl⟩
  have hh0 : isDelimiter h0 = false := hnd h0 (List.mem_cons_self _ _)
  have hh0N : h0 ≠ NUL := hnn h0 (List.mem_cons_self _ _)
  have hdN : ∀ c ∈ d, c ≠ NUL := fun c hc => delimiter_ne_NUL (hd c hc)
  -- the string at the saved pointer
  have hc1 : cstr (pre ++ d ++ (h0 :: t') ++ x :: tail) pre.length =
      d ++ (h0 :: t') ++ (x :: tail).takeWhile (fun c => c ≠ NUL) := by
    unfold cstr
    rw [List.append_assoc, List.append_assoc, List.drop_left, ← List.append_assoc]
    rw [List.takeWhile_append_of_pos]
    intro c hc
    rcases List.mem_append.mp hc with hc | hc
    · simpa using hdN c hc
    · simpa using hnn c hc
  have hspn : strspn (pre ++ d ++ (h0 :: t') ++ x :: tail) pre.length CYSH_TOK_DELIM =
      d.length := by
    unfold strspn
    rw [hc1, List.append_assoc, List.takeWhile_append_of_pos]
    · have : ¬ (h0 ∈ CYSH_TOK_DELIM) := by simp [mem_delim_iff, hh0]
      simp [this]
    · intro c hc
      simpa [mem_delim_iff] using hd c hc
  -- the string at the start of the token
  have hc2 : cstr (pre ++ d ++ (h0 :: t') ++ x :: tail) (pre.length + d.length) =
      (h0 :: t') ++ (x :: tail).takeWhile (fun c => c ≠ NUL) := by
    unfold cstr
    rw [← List.length_append, List.append_assoc (pre ++ d), List.drop_left]
    rw [List.takeWhile_append_of_pos]
    intro c hc
    simpa using hnn c hc
  have hcspn : strcspn (pre ++ d ++ (h0 :: t') ++ x :: tail) (pre.length + d.length)
      CYSH_TOK_DELIM = (h0 :: t').length := by
    unfold strcspn
    rw [hc2, List.takeWhile_append_of_pos]
    · rcases hx with hx | hx
      · simp [hx]
      · have hxN : x ≠ NUL := delimiter_ne_NUL hx
        have : x ∈ CYSH_TOK_DELIM := (mem_delim_iff x).mpr hx
        simp [hxN, this]
    · intro c hc
      have := hnd c hc
      simp [mem_delim_iff, this]
  have hget1 : (pre ++ d ++ (h0 :: t') ++ x :: tail).getD (pre.length + d.length) NUL = h0 := by
    rw [← List.length_append, List.append_assoc (pre ++ d), List.cons_append]
    exact getD_mid _ _ _ _
  have hget2 : (pre ++ d ++ (h0 :: t') ++ x :: tail).getD
      (pre.length + d.length + (h0 :: t').length) NUL = x := by
    rw [← List.length_append, ← List.length_append]
    exact getD_mid _ _ _ _
  simp only [strtok, hspn, hcspn, hget1, hget2, hh0N, if_false]
  by_cases hxN : x = NUL
  · simp [hxN]
  · simp only [hxN, if_false]
    have hst := store_mid size (pre ++ d ++ (h0 :: t')) tail ov x NUL
    simp only [List.length_append] at hst
    rw [hst]

theorem splitFrom_some (fuel : Nat) (line line1 : Block) (save save1 token : Nat)
    (tokens : List Nat) (bs : Nat)
    (h : strtok line save CYSH_TOK_DELIM = (some token, line1, save1)) :
    splitFrom (fuel + 1) line save tokens bs =
      splitFrom fuel line1 save1 (tokens ++ [token])
        (if (tokens ++ [token]).length ≥ bs then bs + CYSH_TOK_BUFSIZE else bs) := by
  simp only [splitFrom, h, cysh_split_line_loop]

theorem splitFrom_none (fuel : Nat) (line line1 : Block) (save save1 : Nat)
    (tokens : List Nat) (bs : Nat)
    (h : strtok line save CYSH_TOK_DELIM = (none, line1, save1)) :
    splitFrom (fuel + 1) line save tokens bs =
      some { line := line1, tokens := tokens, buffersize := bs } := by
  simp only [splitFrom, h, cysh_split_line_loop]

theorem splitFrom_delims (rest pre tail : List Char) (size : Nat) (ov : List Nat)
    (tokens : List Nat) (bs fuel : Nat) (hd : ∀ c ∈ rest, isDelimiter c = true)
    (hfuel : 0 < fuel) (hbs : tokens.length < bs) :
    SplitPost pre rest tail size ov tokens
      (splitFrom fuel { size := size, cells := pre ++ rest ++ NUL :: tail, overrun := ov }
        pre.length tokens bs) := by
  obtain ⟨f, rfl⟩ : ∃ f, fuel = f + 1 := ⟨fuel - 1, by omega⟩
  refine ⟨rest, [], bs, ov, ?_, rfl, ?_, by simp, by simpa using hbs, fun _ => rfl⟩
  · rw [splitFrom_none f _ _ _ _ _ _ (strtok_none _ pre rest tail rfl hd)]
    simp
  · have := maximalRuns_delims rest [] hd
    rw [List.append_nil, maximalRuns_nil] at this
    simp [this]

theorem splitFrom_spec (n : Nat) :
    ∀ (rest : List Char), rest.length ≤ n → (∀ c ∈ rest, c ≠ NUL) →
    ∀ (pre tail : List Char) (size : Nat) (ov : List Nat) (tokens : List Nat) (bs fuel : Nat),
      rest.length < fuel → tokens.length < bs →
      SplitPost pre rest tail size ov tokens
        (splitFrom fuel { size := size, cells := pre ++ rest ++ NUL :: tail, overrun := ov }
          pre.length tokens bs) := by
  induction n with
  | zero =>
    intro rest hlen _ pre tail size ov tokens bs fuel hfuel hbs
    have : rest = [] := List.length_eq_zero.mp (by omega)
    subst this
    exact splitFrom_delims [] pre tail size ov tokens bs fuel (by simp) (by omega) hbs
  | succ n ih =>
    intro rest hlen hnn pre tail size ov tokens bs fuel hfuel hbs
    rcases line_decompose rest with hd | ⟨d, t, r, rfl, hd, ht, hnd, hr⟩
    · exact splitFrom_delims rest pre tail size ov tokens bs fuel hd (by omega) hbs
    · have htlen : 0 < t.length := List.length_pos.mpr ht
      simp only [List.length_append] at hlen hfuel
      obtain ⟨f, rfl⟩ : ∃ f, fuel = f + 1 := ⟨fuel - 1, by omega⟩
      have hnnt : ∀ c ∈ t, c ≠ NUL := fun c hc => hnn c (by simp [hc])
      have hbs1 : (tokens ++ [pre.length + d.length]).length <
          (if (tokens ++ [pre.length + d.length]).length ≥ bs then bs + CYSH_TOK_BUFSIZE
            else bs) := by
        simp only [List.length_append, List.length_singleton, CYSH_TOK_BUFSIZE]
        split <;> omega
      rcases hr with rfl | ⟨c, r3, rfl, hc⟩
      · -- the token ends the line
        have hst := strtok_some size ov pre d t tail NUL hd ht hnd hnnt (Or.inl rfl)
        rw [if_pos rfl] at hst
        have hcells : pre ++ (d ++ t ++ []) ++ NUL :: tail = pre ++ d ++ t ++ NUL :: tail := by
          simp
        rw [hcells, splitFrom_some f _ _ _ _ _ _ _ hst]
        have hcells1 : pre ++ d ++ t ++ NUL :: tail = (pre ++ d ++ t) ++ [] ++ NUL :: tail := by
          simp
        have hsave : pre.length + d.length + t.length = (pre ++ d ++ t).length := by
          simp only [List.length_append]
        rw [hcells1, hsave]
        have hrec := ih [] (by simp) (by simp) (pre ++ d ++ t) tail size ov
          (tokens ++ [pre.length + d.length]) _ f (by simp; omega) hbs1
        obtain ⟨mid, newtoks, bs1, ov1, hres, hmid, hmap, hpos, hcap, hov⟩ := hrec
        have hmid0 : mid = [] := List.length_eq_zero.mp (by simpa using hmid)
        subst hmid0
        have hnew : newtoks = [] := by
          rw [maximalRuns_nil] at hmap
          simpa using hmap
        subst hnew
        have hcs : cstr (pre ++ d ++ t ++ NUL :: tail) (pre.length + d.length) = t := by
          rw [← List.length_append]
          exact cstr_mid (pre ++ d) t tail hnnt
        refine ⟨d ++ t, [pre.length + d.length], bs1, ov1, ?_, by simp, ?_, ?_, ?_, ?_⟩
        · rw [hres]; simp
        · have h1 : pre ++ (d ++ t) ++ NUL :: tail = pre ++ d ++ t ++ NUL :: tail := by simp
          rw [h1, List.append_nil, maximalRuns_delims d t hd, maximalRuns_single t ht hnd,
            List.map_cons, hcs, List.map_nil]
        · intro p hp
          have h1 : pre ++ (d ++ t) ++ NUL :: tail = pre ++ d ++ t ++ NUL :: tail := by simp
          rw [List.mem_singleton.mp hp, h1, strlen, hcs]
          simp only [List.length_append, List.length_nil]
          omega
        · simpa using hcap
        · intro hsz
          exact hov (by simpa [Nat.add_assoc] using hsz)
      · -- a delimiter follows the token
        have hcN : c ≠ NUL := delimiter_ne_NUL hc
        have hst := strtok_some size ov pre d t (r3 ++ NUL :: tail) c hd ht hnd hnnt (Or.inr hc)
        rw [if_neg hcN] at hst
        have hcells : pre ++ (d ++ t ++ c :: r3) ++ NUL :: tail =
            pre ++ d ++ t ++ c :: (r3 ++ NUL :: tail) := by simp
        rw [hcells, splitFrom_some f _ _ _ _ _ _ _ hst]
        have hcells1 : pre ++ d ++ t ++ NUL :: (r3 ++ NUL :: tail) =
            (pre ++ d ++ t ++ [NUL]) ++ r3 ++ NUL :: tail := by simp
        have hsave : pre.length + d.length + t.length + 1 = (pre ++ d ++ t ++ [NUL]).length := by
          simp only [List.length_append, List.length_singleton]
        rw [hcells1, hsave]
        simp only [List.length_append, List.length_cons] at hlen hfuel
        have hrec := ih r3 (by omega) (fun x hx => hnn x (by simp [hx]))
          (pre ++ d ++ t ++ [NUL]) tail size
          (if pre.length + d.length + t.length < size then ov
            else ov ++ [pre.length + d.length + t.length])
          (tokens ++ [pre.length + d.length]) _ f (by omega) hbs1
        obtain ⟨mid, newtoks, bs1, ov1, hres, hmid, hmap, hpos, hcap, hov⟩ := hrec
        have hfinal : pre ++ d ++ t ++ [NUL] ++ mid ++ NUL :: tail =
            pre ++ (d ++ t ++ NUL :: mid) ++ NUL :: tail := by simp
        have hcs : cstr (pre ++ (d ++ t ++ NUL :: mid) ++ NUL :: tail)
            (pre.length + d.length) = t := by
          have h1 : pre ++ (d ++ t ++ NUL :: mid) ++ NUL :: tail =
              (pre ++ d) ++ t ++ NUL :: (mid ++ NUL :: tail) := by simp
          rw [h1, ← List.length_append]
          exact cstr_mid (pre ++ d) t _ hnnt
        refine ⟨d ++ t ++ NUL :: mid, (pre.length + d.length) :: newtoks, bs1, ov1,
          ?_, ?_, ?_, ?_, ?_, ?_⟩
        · rw [hres, hfinal]; simp
        · simp [hmid]
        · rw [List.append_assoc d t (c :: r3), maximalRuns_delims d _ hd, maximalRuns_token t r3 c ht hnd hc,
            List.map_cons, hcs, ← hfinal, hmap]
        · intro p hp
          rcases List.mem_cons.mp hp with rfl | hp
          · rw [strlen, hcs]
            simp only [List.length_append, List.length_cons]
            omega
          · have := hpos p hp
            rw [hfinal] at this
            simp only [List.length_append, List.length_cons, List.length_nil] at this ⊢
            omega
        · simp only [List.length_append, List.length_cons, List.length_nil] at hcap ⊢
          omega
        · intro hsz
          simp only [List.length_append, List.length_cons, List.length_nil] at hov hsz
          rw [hov (by omega), if_pos (by omega)]

theorem split_line_post (b : Block) (line tail : List Char)
    (hcells : b.cells = line ++ NUL :: tail) (hnul : ∀ c ∈ line, c ≠ NUL) :
    SplitPost [] line tail b.size b.overrun [] (cysh_split_line b) := by
  have h := splitFrom_spec line.length line (le_refl _) hnul [] tail b.size b.overrun []
    CYSH_TOK_BUFSIZE (b.cells.length + 1) (by rw [hcells]; simp; omega) (by decide)
  have hb : b = { size := b.size, cells := [] ++ line ++ NUL :: tail, overrun := b.overrun } := by
    cases b
    simp only [List.nil_append] at hcells ⊢
    simp [hcells]
  have hsplit : cysh_split_line b = splitFrom (b.cells.length + 1) b 0 [] CYSH_TOK_BUFSIZE := rfl
  rw [hsplit]
  rw [← hb] at h
  exact h

theorem maximalRuns_props (n : Nat) :
    ∀ l : List Char, l.length ≤ n →
      ∀ t ∈ maximalRuns l, t ≠ [] ∧ ∀ c ∈ t, isDelimiter c = false := by
  induction n with
  | zero =>
    intro l hl t ht
    have : l = [] := List.length_eq_zero.mp (by omega)
    subst this
    simp [maximalRuns_nil] at ht
  | succ n ih =>
    intro l hl t ht
    rcases line_decompose l with hd | ⟨d, u, r, rfl, hd, hu, hnd, hr⟩
    · have := maximalRuns_delims l [] hd
      rw [List.append_nil, maximalRuns_nil] at this
      simp [this] at ht
    · rcases hr with rfl | ⟨c, r3, rfl, hc⟩
      · rw [List.append_nil, maximalRuns_delims d u hd, maximalRuns_single u hu hnd] at ht
        rw [List.mem_singleton.mp ht]
        exact ⟨hu, hnd⟩
      · rw [List.append_assoc d u (c :: r3), maximalRuns_delims d _ hd,
          maximalRuns_token u r3 c hu hnd hc] at ht
        rcases List.mem_cons.mp ht with rfl | ht
        · exact ⟨hu, hnd⟩
        · have hu1 : 0 < u.length := List.length_pos.mpr hu
          simp only [List.length_append, List.length_cons] at hl
          exact ih r3 (by omega) t ht

theorem intercalate_cons_cons (sep t u : List Char) (ts : List (List Char)) :
    sep.intercalate (t :: u :: ts) = t ++ sep ++ sep.intercalate (u :: ts) := by
  simp [List.intercalate, List.intersperse]

theorem maximalRuns_intercalate (ts : List (List Char))
    (hts : ∀ t ∈ ts, t ≠ [] ∧ ∀ c ∈ t, isDelimiter c = false) :
    maximalRuns ([' '].intercalate ts) = ts := by
  induction ts with
  | nil => simp [List.intercalate, maximalRuns_nil]
  | cons t rest ih =>
    have ht := hts t (List.mem_cons_self _ _)
    cases rest with
    | nil =>
      have : [' '].intercalate [t] = t := by simp [List.intercalate]
      rw [this, maximalRuns_single t ht.1 ht.2]
    | cons u us =>
      rw [intercalate_cons_cons, List.append_assoc, List.singleton_append,
        maximalRuns_token t _ ' ' ht.1 ht.2 (by decide),
        ih (fun x hx => hts x (List.mem_cons_of_mem _ hx))]

/-! ## Dispatcher and built-ins -/

theorem execute_cons (env : Env) (line : Block) (arg0 : Nat) (more : List Nat) (w : World) :
    cysh_execute env line (arg0 :: more) w =
      if cstr line.cells arg0 = "cd".toList then cysh_cd env line (arg0 :: more) w
      else if cstr line.cells arg0 = "help".toList then cysh_help env line (arg0 :: more) w
      else if cstr line.cells arg0 = "exit".toList then cysh_exit env line (arg0 :: more) w
      else cysh_launch env line (arg0 :: more) w := by
  simp only [cysh_execute, cysh_execute_for, builtin_str, builtin_func]

theorem cd_status (env : Env) (line : Block) (args : List Nat) (w : World) :
    (cysh_cd env line args w).1 = 1 := by
  unfold cysh_cd
  split
  · rfl
  · rfl

theorem launch_status (env : Env) (line : Block) (args : List Nat) (w : World) :
    (cysh_launch env line args w).1 = 1 := by
  cases hs : env.spawn w.trace (args.map (cstr line.cells)) w.stdin <;>
    simp [cysh_launch, hs]

/-- The block around a non-empty C string: the bytes before it, the string, and
behind it nothing or a NUL. -/
theorem cstr_decompose (cells : List Char) (a : Nat) (q : List Char)
    (h : cstr cells a = q) (hq : q ≠ []) :
    ∃ pre post, cells = pre ++ q ++ post ∧ pre.length = a ∧ (∀ c ∈ q, c ≠ NUL) := by
  have hdrop : cells.drop a ≠ [] := by
    intro h0
    apply hq
    rw [← h, cstr, h0]
    rfl
  have hlt : a < cells.length := by
    by_contra hge
    exact hdrop (List.drop_eq_nil_of_le (by omega))
  refine ⟨cells.take a, (cells.drop a).dropWhile (fun c => c ≠ NUL), ?_, ?_, ?_⟩
  · rw [← h, cstr, List.append_assoc, List.takeWhile_append_dropWhile, List.take_append_drop]
  · simp [List.length_take]; omega
  · intro c hc
    rw [← h, cstr] at hc
    simpa using List.mem_takeWhile_imp hc

theorem store_at (size : Nat) (pre post : List Char) (ov : List Nat) (c : Char) :
    ({ size := size, cells := pre ++ post, overrun := ov } : Block).store pre.length c =
      { size := size, cells := pre ++ c :: post.drop 1,
        overrun := if pre.length < size then ov else ov ++ [pre.length] } := by
  simp [Block.store, List.take_append_eq_append_take, List.drop_append_eq_append_drop]

theorem strcat_slash (size : Nat) (pre q post : List Char) (ov : List Nat)
    (hcs : cstr (pre ++ q ++ post) pre.length = q) :
    strcat { size := size, cells := pre ++ q ++ post, overrun := ov } pre.length "/".toList =
      ({ size := size, cells := pre ++ (q ++ ['/']) ++ NUL :: (post.drop 1).drop 1,
         overrun :=
          if pre.length + q.length + 1 < size then
            (if pre.length + q.length < size then ov else ov ++ [pre.length + q.length])
          else (if pre.length + q.length < size then ov else ov ++ [pre.length + q.length]) ++
            [pre.length + q.length + 1] }, pre.length) := by
  have hlen : strlen (pre ++ q ++ post) pre.length = q.length := by
    rw [strlen, hcs]
  have h1 := store_at size (pre ++ q) post ov '/'
  have h2 := store_at size (pre ++ q ++ ['/']) (post.drop 1)
    (if (pre ++ q).length < size then ov else ov ++ [(pre ++ q).length]) NUL
  simp only [List.length_append, List.length_singleton] at h1 h2
  simp only [strcat, hlen, Block.storeAll, String.toList]
  show (((Block.mk size (pre ++ q ++ post) ov).store (pre.length + q.length) '/').store
    (pre.length + q.length + 1) NUL, pre.length) = _
  rw [h1]
  have h3 : pre ++ q ++ '/' :: List.drop 1 post = pre ++ q ++ ['/'] ++ List.drop 1 post := by
    simp
  rw [h3, h2]
  simp

theorem get?_mid (pre post : List Char) (c : Char) :
    (pre ++ c :: post).get? pre.length = some c := by
  induction pre with
  | nil => rfl
  | cons x xs ih => simpa using ih

/-- The byte `args[1][strlen (args[1]) - 1]` is the last byte of the string. -/
theorem last_byte (cells : List Char) (a : Nat) (q : List Char) (z : Char)
    (h : cstr cells a = q ++ [z]) :
    cells.get? (a + strlen cells a - 1) = some z := by
  obtain ⟨pre, post, hcells, hpre, _⟩ := cstr_decompose cells a (q ++ [z]) h (by simp)
  rw [strlen, h, hcells, ← hpre]
  have : pre.length + (q ++ [z]).length - 1 = (pre ++ q).length := by
    simp only [List.length_append, List.length_singleton]
    omega
  rw [this]
  have h2 : pre ++ (q ++ [z]) ++ post = (pre ++ q) ++ z :: post := by simp
  rw [h2]
  exact get?_mid _ _ _

/-- The command `cd p`, the argument not ending in a slash: `strcat` appends one. -/
theorem cd_plain (env : Env) (line : Block) (args : List Nat) (w : World) (a1 : Nat)
    (p : List Char) (z : Char) (harg : args.get? 1 = some a1)
    (hcs : cstr line.cells a1 = p ++ [z]) (hz : z ≠ '/') :
    cysh_cd env line args w =
      (1, (strcat line a1 "/".toList).1, chdirWorld env (p ++ [z] ++ ['/']) w) ∧
    cstr (strcat line a1 "/".toList).1.cells a1 = p ++ [z] ++ ['/'] := by
  have hlast := last_byte line.cells a1 p z hcs
  obtain ⟨pre, post, hcells, hpre, hnn⟩ := cstr_decompose line.cells a1 (p ++ [z]) hcs (by simp)
  have hline : line = ⟨line.size, pre ++ (p ++ [z]) ++ post, line.overrun⟩ := by
    cases line
    simp only at hcells
    simp [hcells]
  have hcs1 : cstr (pre ++ (p ++ [z]) ++ post) pre.length = p ++ [z] := by
    rw [← hcells, hpre, hcs]
  have hcat := strcat_slash line.size pre (p ++ [z]) post line.overrun hcs1
  rw [← hline, hpre] at hcat
  have hnew : cstr (strcat line a1 "/".toList).1.cells a1 = p ++ [z] ++ ['/'] := by
    rw [hcat, ← hpre]
    apply cstr_mid
    intro c hc
    rcases List.mem_append.mp hc with hc | hc
    · exact hnn c hc
    · rw [List.mem_singleton.mp hc]; decide
  refine ⟨?_, hnew⟩
  have hne : ¬ (some z = some '/') := by simpa using hz
  simp only [cysh_cd, harg, hlast, hne, if_false]
  have hdir : (strcat line a1 "/".toList).2 = a1 := rfl
  rw [show strcat line a1 "/".toList =
    ((strcat line a1 "/".toList).1, a1) from Prod.ext rfl hdir]
  simp only [hnew, chdirWorld]
  cases hok : env.chdir w.trace (p ++ [z] ++ ['/']) <;>
    simp only [if_true, if_false, Bool.false_eq_true]

/-- The command `cd p/`, the argument ending in a slash: it is passed on as it is. -/
theorem cd_slash (env : Env) (line : Block) (args : List Nat) (w : World) (a1 : Nat)
    (p : List Char) (harg : args.get? 1 = some a1)
    (hcs : cstr line.cells a1 = p ++ ['/']) :
    cysh_cd env line args w = (1, line, chdirWorld env (p ++ ['/']) w) := by
  have hlast := last_byte line.cells a1 p '/' hcs
  simp only [cysh_cd, harg, hlast, if_true, hcs, chdirWorld]
  cases hok : env.chdir w.trace (p ++ ['/']) <;>
    simp only [if_true, if_false, Bool.false_eq_true]

theorem execute_status (env : Env) (line : Block) (args : List Nat) (w : World) :
    ((cysh_execute env line args w).1 = 0 ↔
        (args.map (cstr line.cells)).head? = some "exit".toList) ∧
      ((cysh_execute env line args w).1 = 0 ∨ (cysh_execute env line args w).1 = 1) := by
  cases args with
  | nil => simp [cysh_execute]
  | cons arg0 more =>
    rw [execute_cons]
    simp only [List.map_cons, List.head?_cons, Option.some.injEq]
    by_cases h1 : cstr line.cells arg0 = "cd".toList
    · have hne : ¬ (cstr line.cells arg0 = "exit".toList) := by rw [h1]; decide
      rw [if_pos h1, cd_status]
      exact ⟨⟨fun h => absurd h (by decide), fun h => absurd h hne⟩, Or.inr rfl⟩
    · rw [if_neg h1]
      by_cases h2 : cstr line.cells arg0 = "help".toList
      · have hne : ¬ (cstr line.cells arg0 = "exit".toList) := by rw [h2]; decide
        rw [if_pos h2]
        exact ⟨⟨fun h => absurd h (by simp [cysh_help]), fun h => absurd h hne⟩,
          Or.inr (by simp [cysh_help])⟩
      · rw [if_neg h2]
        by_cases h3 : cstr line.cells arg0 = "exit".toList
        · rw [if_pos h3]
          exact ⟨⟨fun _ => h3, fun _ => rfl⟩, Or.inl rfl⟩
        · rw [if_neg h3, launch_status]
          exact ⟨⟨fun h => absurd h (by decide), fun h => absurd h h3⟩, Or.inr rfl⟩

theorem cd_world (env : Env) (line : Block) (args : List Nat) (w : World) :
    (cysh_cd env line args w).2.2 =
        w.emit (.stderr "cysh: expected argument to \"cd\"\n".toList) ∨
      ∃ path, (cysh_cd env line args w).2.2 = chdirWorld env path w := by
  unfold cysh_cd
  split
  · left; rfl
  · right
    split
    rename_i line1 dir _
    refine ⟨cstr line1.cells dir, ?_⟩
    simp only [chdirWorld]
    cases hok : env.chdir w.trace (cstr line1.cells dir) <;>
      simp only [if_true, if_false, Bool.false_eq_true]

theorem chdirWorld_stdin (env : Env) (path : List Char) (w : World) :
    (chdirWorld env path w).stdin = w.stdin := by
  unfold chdirWorld
  split <;> rfl

theorem chdirWorld_launch (env : Env) (path : List Char) (w : World) :
    (chdirWorld env path w).trace.filter isLaunch = w.trace.filter isLaunch := by
  unfold chdirWorld
  split <;> simp [World.emit, List.filter_append, isLaunch]

theorem help_world (env : Env) (line : Block) (args : List Nat) (w : World) :
    cysh_help env line args w =
      (1, line,
        { stdin := w.stdin
          trace := w.trace ++
            [.stdout "Cyklan's CySH\n".toList,
             .stdout "Type program names and arguments, and hit enter\n".toList,
             .stdout "The follwing commands are built in:\n".toList,
             .stdout "\tcd\n".toList, .stdout "\thelp\n".toList, .stdout "\texit\n".toList,
             .stdout "Use the man command for information on other programs.\n".toList] }) := by
  simp [cysh_help, builtin_str, World.emit]

/-- A launch leaves the input alone when the operating system does. -/
theorem launch_stdin (env : Env) (line : Block) (args : List Nat) (w : World)
    (hu : InputUntouched env) :
    (cysh_launch env line args w).2.2.stdin = w.stdin := by
  cases hs : env.spawn w.trace (args.map (cstr line.cells)) w.stdin with
  | forkFailed => simp [cysh_launch, hs, World.emit]
  | child execOk stops last stdin1 =>
    have h := hu _ _ _ _ _ _ _ hs
    simp [cysh_launch, hs, h]

/-- The dispatcher leaves the input alone when the operating system does. -/
theorem execute_stdin (env : Env) (line : Block) (args : List Nat) (w : World)
    (hu : InputUntouched env) :
    (cysh_execute env line args w).2.2.stdin = w.stdin := by
  cases args with
  | nil => rfl
  | cons arg0 more =>
    rw [execute_cons]
    split
    · rcases cd_world env line (arg0 :: more) w with h | ⟨path, h⟩
      · rw [h]; rfl
      · rw [h, chdirWorld_stdin]
    · split
      · rw [help_world]
      · split
        · rfl
        · exact launch_stdin env line _ w hu

/-- A built-in, and the empty command, leave the input alone. -/
theorem execute_stdin_builtin (env : Env) (line : Block) (args : List Nat) (w : World)
    (h : ∀ name, (args.map (cstr line.cells)).head? = some name → name ∈ builtin_str) :
    (cysh_execute env line args w).2.2.stdin = w.stdin := by
  cases args with
  | nil => rfl
  | cons arg0 more =>
    rw [execute_cons]
    split
    · rcases cd_world env line (arg0 :: more) w with h1 | ⟨path, h1⟩
      · rw [h1]; rfl
      · rw [h1, chdirWorld_stdin]
    · split
      · rw [help_world]
      · split
        · rfl
        · rename_i h1 h2 h3
          have := h (cstr line.cells arg0) (by simp)
          simp [builtin_str] at this
          rcases this with h4 | h4 | h4
          · exact absurd h4 h1
          · exact absurd h4 h2
          · exact absurd h4 h3

/-- A built-in, and the empty command, launch nothing. -/
theorem execute_no_launch (env : Env) (line : Block) (args : List Nat) (w : World)
    (h : ∀ name, (args.map (cstr line.cells)).head? = some name → name ∈ builtin_str) :
    (cysh_execute env line args w).2.2.trace.filter isLaunch = w.trace.filter isLaunch := by
  cases args with
  | nil => rfl
  | cons arg0 more =>
    rw [execute_cons]
    split
    · rcases cd_world env line (arg0 :: more) w with h1 | ⟨path, h1⟩
      · rw [h1]; simp [World.emit, List.filter_append, isLaunch]
      · rw [h1, chdirWorld_launch]
    · split
      · rw [help_world]; simp [List.filter_append, isLaunch]
      · split
        · rfl
        · rename_i h1 h2 h3
          have := h (cstr line.cells arg0) (by simp)
          simp [builtin_str] at this
          rcases this with h4 | h4 | h4
          · exact absurd h4 h1
          · exact absurd h4 h2
          · exact absurd h4 h3

/-! ## The loop -/

theorem promptTrace_events (env : Env) (trace : List Event) :
    ∃ more, promptTrace env trace = trace ++ more ∧ ∀ e ∈ more, ∃ text, e = Event.stdout text := by
  unfold promptTrace promptWorld
  rcases hg : env.getcwd trace with ⟨ok, cwd⟩
  cases ok
  · refine ⟨[.stdout "getcwd error\n".toList, .stdout (cwd ++ "> ".toList)], ?_, ?_⟩
    · simp [World.emit, hg]
    · intro e he
      simp only [List.mem_cons, List.mem_singleton, List.not_mem_nil, or_false] at he
      rcases he with rfl | rfl
      · exact ⟨_, rfl⟩
      · exact ⟨_, rfl⟩
  · refine ⟨[.stdout (cwd ++ "> ".toList)], ?_, ?_⟩
    · simp [World.emit, hg]
    · intro e he
      rw [List.mem_singleton.mp he]
      exact ⟨_, rfl⟩

/-- The block of a line that was read: its C string, a NUL, and whatever follows. -/
theorem line_block_shape (l : List Char) :
    ∃ tail, l ++ [NUL] = l.takeWhile (fun c => c ≠ NUL) ++ NUL :: tail := by
  induction l with
  | nil => exact ⟨[], rfl⟩
  | cons c cs ih =>
    by_cases hc : c = NUL
    · exact ⟨cs ++ [NUL], by simp [hc]⟩
    · obtain ⟨tail, h⟩ := ih
      refine ⟨tail, ?_⟩
      simp only [ne_eq, hc, not_false_eq_true, decide_True, List.takeWhile_cons_of_pos,
        List.cons_append]
      exact congrArg _ h

/-- What `cysh_split_line` makes of the line that `cysh_read_line` read. -/
theorem read_split (stdin : List Char) (hshort : (firstLine stdin).length < lineLimit) :
    ∃ line a, cysh_read_line stdin = some (line, afterFirstLine stdin) ∧
      cysh_split_line line = some a ∧
      a.strings = nextCommand stdin ∧ a.line.overrun = [] := by
  obtain ⟨tail, htail⟩ := line_block_shape (firstLine stdin)
  have hnn : ∀ c ∈ (firstLine stdin).takeWhile (fun c => c ≠ NUL), c ≠ NUL := by
    intro c hc
    simpa using List.mem_takeWhile_imp hc
  have hpost := split_line_post
    ⟨1024 * ((firstLine stdin).length / 1024 + 1), firstLine stdin ++ [NUL], []⟩
    ((firstLine stdin).takeWhile (fun c => c ≠ NUL)) tail htail hnn
  obtain ⟨mid, newtoks, bs1, ov1, hres, hmid, hmap, _, _, hov⟩ := hpost
  have hle : ((firstLine stdin).takeWhile (fun c => c ≠ NUL)).length ≤
      (firstLine stdin).length := by
    have := congrArg List.length htail
    simp only [List.length_append, List.length_cons, List.length_nil] at this
    omega
  refine ⟨_, _, read_line_short stdin hshort, hres, ?_, ?_⟩
  · simpa [Argv.strings, nextCommand] using hmap
  · apply hov
    simp only [List.length_nil, Nat.zero_add]
    omega

theorem promptWorld_trace (env : Env) (w : World) :
    (promptWorld env w).trace = promptTrace env w.trace := by
  unfold promptTrace promptWorld
  rcases hg : env.getcwd w.trace with ⟨ok, cwd⟩
  cases ok <;> simp [World.emit, hg]

/-- A round of the loop whose line is read and cut into tokens is the prompt
followed by `cysh_execute`. -/
theorem loop_body_eq (env : Env) (w : World) (line : Block) (rest : List Char) (a : Argv)
    (hread : cysh_read_line w.stdin = some (line, rest))
    (hsplit : cysh_split_line line = some a) :
    cysh_loop_body env w =
      some (.done ((cysh_execute env a.line a.tokens ⟨rest, promptTrace env w.trace⟩).1,
            (cysh_execute env a.line a.tokens ⟨rest, promptTrace env w.trace⟩).2.2)) := by
  rw [← promptWorld_trace]
  unfold cysh_loop_body promptWorld
  rcases hg : env.getcwd w.trace with ⟨ok, cwd⟩
  cases ok <;> simp [World.emit, hread, hsplit]

/-- A round of the loop whose line has `lineLimit` characters or more ends the
process: the prompt, the complaint on the error stream, `exit (EXIT_FAILURE)`. -/
theorem loop_body_long (env : Env) (w : World)
    (hlong : lineLimit ≤ (firstLine w.stdin).length) :
    cysh_loop_body env w =
      some (.exit EXIT_FAILURE
        ⟨w.stdin, promptTrace env w.trace ++ [.stderr "cysh: allocation error\n".toList]⟩) := by
  have hread := read_line_long w.stdin hlong
  rw [← promptWorld_trace]
  unfold cysh_loop_body promptWorld
  rcases hg : env.getcwd w.trace with ⟨ok, cwd⟩
  cases ok <;> simp [World.emit, hread]

/-- One round of the loop on a line below the limit: it returns; its status is
TERMINATE exactly when the first token of the line is `exit`; a built-in or
empty line launches nothing; and one line of the input has been read when the
line is built-in or empty, or when launches leave the input alone. -/
theorem loop_body_spec (env : Env) (w : World)
    (hshort : (firstLine w.stdin).length < lineLimit) :
    ∃ status w1, cysh_loop_body env w = some (.done (status, w1)) ∧
      (status = 0 ↔ (nextCommand w.stdin).head? = some "exit".toList) ∧
      (status = 0 ∨ status = 1) ∧
      ((∀ name, (nextCommand w.stdin).head? = some name → name ∈ builtin_str) →
        w1.stdin = afterFirstLine w.stdin ∧
          w1.trace.filter isLaunch = w.trace.filter isLaunch) ∧
      (InputUntouched env → w1.stdin = afterFirstLine w.stdin) := by
  obtain ⟨line, a, hread, hsplit, hstr, _⟩ := read_split w.stdin hshort
  have hbody := loop_body_eq env w line _ a hread hsplit
  have hst := execute_status env a.line a.tokens
    ⟨afterFirstLine w.stdin, promptTrace env w.trace⟩
  have hstr1 : a.tokens.map (cstr a.line.cells) = nextCommand w.stdin := hstr
  rw [hstr1] at hst
  refine ⟨_, _, hbody, hst.1, hst.2, ?_, ?_⟩
  · intro hb
    constructor
    · rw [execute_stdin_builtin env a.line a.tokens _ (by rw [hstr1]; exact hb)]
    · rw [execute_no_launch env a.line a.tokens _ (by rw [hstr1]; exact hb)]
      obtain ⟨more, hmore, hev⟩ := promptTrace_events env w.trace
      rw [hmore, List.filter_append]
      have : more.filter isLaunch = [] := by
        apply List.filter_eq_nil_iff.mpr
        intro e he
        obtain ⟨text, rfl⟩ := hev e he
        simp [isLaunch]
      rw [this, List.append_nil]
  · intro hu
    rw [execute_stdin env a.line a.tokens _ hu]

theorem firstLine_nil_short : (firstLine []).length < lineLimit := by
  unfold lineLimit
  simp [firstLine]

/-- With the input used up, a round of the loop reads the empty line, answers
CONTINUE, adds only the prompt to the trace and leaves the input used up. -/
theorem loop_body_exhausted (env : Env) (w : World) (h : w.stdin = []) :
    cysh_loop_body env w = some (.done (1, ⟨[], promptTrace env w.trace⟩)) := by
  have hread : cysh_read_line w.stdin = some (⟨1024, [NUL], []⟩, []) := by
    rw [h]
    decide
  have hsplit : cysh_split_line ⟨1024, [NUL], []⟩ = some ⟨⟨1024, [NUL], []⟩, [], 64⟩ := by
    decide
  rw [loop_body_eq env w _ _ _ hread hsplit]
  rfl

theorem loop_exhausted (env : Env) (fuel : Nat) :
    ∀ w : World, w.stdin = [] → cysh_loop env fuel w = none := by
  induction fuel with
  | zero => intro w _; rfl
  | succ n ih =>
    intro w h
    have hbody := loop_body_exhausted env w h
    simp only [cysh_loop, hbody]
    simpa using ih ⟨[], promptTrace env w.trace⟩ rfl

theorem loop_continue (env : Env) (fuel : Nat) (w w1 : World) (status : Int)
    (h : cysh_loop_body env w = some (.done (status, w1))) (hne : status ≠ 0) :
    cysh_loop env (fuel + 1) w = cysh_loop env fuel w1 := by
  simp [cysh_loop, h, hne]

theorem loop_stop (env : Env) (fuel : Nat) (w w1 : World)
    (h : cysh_loop_body env w = some (.done (0, w1))) :
    cysh_loop env (fuel + 1) w = some (.done w1) := by
  simp [cysh_loop, h]

theorem loop_exit (env : Env) (fuel : Nat) (w w1 : World) (status : Nat)
    (h : cysh_loop_body env w = some (.exit status w1)) :
    cysh_loop env (fuel + 1) w = some (.exit status w1) := by
  simp [cysh_loop, h]

/-- With launches that leave the input alone and lines below the limit, the
loop returns in round `k + 1` when line `k` is the first whose first token is
`exit`. -/
theorem loop_stops_at (env : Env) (hu : InputUntouched env) (k : Nat) :
    ∀ w : World,
      (∀ i ≤ k, (firstLine (dropLines i w.stdin)).length < lineLimit) →
      (∀ i < k, (nextCommand (dropLines i w.stdin)).head? ≠ some "exit".toList) →
      (nextCommand (dropLines k w.stdin)).head? = some "exit".toList →
      (∃ w1, cysh_loop env (k + 1) w = some (.done w1) ∧
          w1.stdin = dropLines (k + 1) w.stdin) ∧
        cysh_loop env k w = none := by
  induction k with
  | zero =>
    intro w hshort _ hexit
    obtain ⟨status, w1, hbody, hiff, _, _, hstdin⟩ :=
      loop_body_spec env w (hshort 0 (le_refl _))
    have h0 : status = 0 := hiff.mpr hexit
    subst h0
    exact ⟨⟨w1, loop_stop env 0 w w1 hbody, hstdin hu⟩, rfl⟩
  | succ k ih =>
    intro w hshort hbefore hexit
    obtain ⟨status, w1, hbody, hiff, _, _, hstdin⟩ :=
      loop_body_spec env w (hshort 0 (by omega))
    have hne : status ≠ 0 := fun h0 => hbefore 0 (by omega) (hiff.mp h0)
    have hshift : ∀ i, dropLines i w1.stdin = dropLines (i + 1) w.stdin := by
      intro i
      rw [hstdin hu]
      rfl
    have hrec := ih w1
      (fun i hi => by rw [hshift]; exact hshort (i + 1) (by omega))
      (fun i hi => by rw [hshift]; exact hbefore (i + 1) (by omega))
      (by rw [hshift]; exact hexit)
    rw [loop_continue env (k + 1) w w1 status hbody hne,
      loop_continue env k w w1 status hbody hne, ← hshift]
    exact hrec

/-- With launches that leave the input alone and lines below the limit, the
loop returns exactly when some line of the input has `exit` as its first token. -/
theorem loop_returns_iff (env : Env) (hu : InputUntouched env) (w : World)
    (hshort : ∀ i, (firstLine (dropLines i w.stdin)).length < lineLimit) :
    (∃ fuel w1, cysh_loop env fuel w = some (.done w1)) ↔
      ∃ k, (nextCommand (dropLines k w.stdin)).head? = some "exit".toList := by
  constructor
  · rintro ⟨fuel, wr, hfuel⟩
    induction fuel generalizing w with
    | zero => simp [cysh_loop] at hfuel
    | succ n ih =>
      obtain ⟨status, w1, hbody, hiff, _, _, hstdin⟩ := loop_body_spec env w (hshort 0)
      by_cases h0 : status = 0
      · exact ⟨0, hiff.mp h0⟩
      · rw [loop_continue env n w w1 status hbody h0] at hfuel
        have hshort1 : ∀ i, (firstLine (dropLines i w1.stdin)).length < lineLimit := by
          intro i
          rw [hstdin hu]
          exact hshort (i + 1)
        obtain ⟨k, hk⟩ := ih w1 hshort1 hfuel
        refine ⟨k + 1, ?_⟩
        rw [hstdin hu] at hk
        exact hk
  · rintro ⟨k, hk⟩
    induction k generalizing w with
    | zero =>
      obtain ⟨status, w1, hbody, hiff, _, _, _⟩ := loop_body_spec env w (hshort 0)
      have h0 : status = 0 := hiff.mpr hk
      subst h0
      exact ⟨1, w1, loop_stop env 0 w w1 hbody⟩
    | succ k ih =>
      obtain ⟨status, w1, hbody, hiff, _, _, hstdin⟩ := loop_body_spec env w (hshort 0)
      by_cases h0 : status = 0
      · subst h0
        exact ⟨1, w1, loop_stop env 0 w w1 hbody⟩
      · have hshort1 : ∀ i, (firstLine (dropLines i w1.stdin)).length < lineLimit := by
          intro i
          rw [hstdin hu]
          exact hshort (i + 1)
        have hk1 : (nextCommand (dropLines k w1.stdin)).head? = some "exit".toList := by
          rw [hstdin hu]
          exact hk
        obtain ⟨fuel, wr, hfuel⟩ := ih w1 hshort1 hk1
        refine ⟨fuel + 1, wr, ?_⟩
        rw [loop_continue env fuel w w1 status hbody h0]
        exact hfuel

theorem cstr_no_nul (cells : List Char) (p : Nat) (c : Char) (hc : c ∈ cstr cells p) :
    c ≠ NUL := by
  simpa using List.mem_takeWhile_imp hc

theorem intercalate_no_nul (ts : List (List Char)) (hts : ∀ t ∈ ts, ∀ c ∈ t, c ≠ NUL) :
    ∀ c ∈ [' '].intercalate ts, c ≠ NUL := by
  induction ts with
  | nil => intro c hc; simp [List.intercalate] at hc
  | cons t rest ih =>
    cases rest with
    | nil =>
      have : [' '].intercalate [t] = t := by simp [List.intercalate]
      rw [this]
      exact hts t (List.mem_cons_self _ _)
    | cons u us =>
      intro c hc
      rw [intercalate_cons_cons] at hc
      rcases List.mem_append.mp hc with hc | hc
      · rcases List.mem_append.mp hc with hc | hc
        · exact hts t (List.mem_cons_self _ _) c hc
        · rw [List.mem_singleton.mp hc]; decide
      · exact ih (fun x hx => hts x (List.mem_cons_of_mem _ hx)) c hc

/-! ## The claims -/

/-- C2: for every argument vector, on every operating system (whatever `fork`,
`execvp` and the child do), `cysh_execute` returns TERMINATE (0) when the first
token is exactly `exit`, with any further arguments, and CONTINUE (1) in every
other case, the empty vector included. -/
theorem C2_execute_terminates_iff_exit (env : Env) (line : Block) (args : List Nat)
    (w : World) :
    ((args.map (cstr line.cells)).head? = some "exit".toList →
        (cysh_execute env line args w).1 = 0) ∧
      ((args.map (cstr line.cells)).head? ≠ some "exit".toList →
        (cysh_execute env line args w).1 = 1) := by
  have h := execute_status env line args w
  refine ⟨h.1.mpr, fun hne => ?_⟩
  rcases h.2 with h0 | h1
  · exact absurd (h.1.mp h0) hne
  · exact h1

/-- C3: for every NUL-terminated line without a NUL inside, `cysh_split_line`
returns, and the strings of its tokens are exactly the maximal runs of
non-delimiter characters of the line, from left to right; every token is
non-empty and free of delimiters, and the NULL sentinel fits the token array,
whatever the number of tokens. -/
theorem C3_split_line_maximal_runs (b : Block) (line tail : List Char)
    (hcells : b.cells = line ++ NUL :: tail) (hnul : ∀ c ∈ line, c ≠ NUL) :
    ∃ a, cysh_split_line b = some a ∧
      a.strings = maximalRuns line ∧
      (∀ t ∈ a.strings, t ≠ [] ∧ ∀ c ∈ t, c ∉ CYSH_TOK_DELIM) ∧
      a.tokens.length < a.buffersize := by
  obtain ⟨mid, newtoks, bs1, ov1, hres, _, hmap, _, hcap, _⟩ :=
    split_line_post b line tail hcells hnul
  have hstr : Argv.strings
      { line := { size := b.size, cells := [] ++ mid ++ NUL :: tail, overrun := ov1 },
        tokens := [] ++ newtoks, buffersize := bs1 } = maximalRuns line := by
    simpa [Argv.strings] using hmap
  refine ⟨_, hres, hstr, ?_, by simpa using hcap⟩
  intro t ht
  rw [hstr] at ht
  obtain ⟨hne, hnd⟩ := maximalRuns_props line.length line (le_refl _) t ht
  refine ⟨hne, fun c hc hmem => ?_⟩
  have := hnd c hc
  rw [(mem_delim_iff c).mp hmem] at this
  exact absurd this (by decide)

/-- Witness of C3 on the line `ls  -l /tmp`. -/
theorem C3_split_line_maximal_runs_witness :
    ∃ a, cysh_split_line ⟨1024, "ls  -l /tmp".toList ++ [NUL], []⟩ = some a ∧
      a.strings = maximalRuns "ls  -l /tmp".toList ∧
      (∀ t ∈ a.strings, t ≠ [] ∧ ∀ c ∈ t, c ∉ CYSH_TOK_DELIM) ∧
      a.tokens.length < a.buffersize :=
  C3_split_line_maximal_runs ⟨1024, "ls  -l /tmp".toList ++ [NUL], []⟩ "ls  -l /tmp".toList []
    rfl (by decide)

/-- C4: for every line made of delimiters only (the empty line included),
`cysh_split_line` returns the argument vector without any token, the block
untouched, and `cysh_execute` on it returns CONTINUE and changes nothing: no
output, no `chdir`, no process. -/
theorem C4_blank_line_is_no_op (b : Block) (line tail : List Char)
    (hcells : b.cells = line ++ NUL :: tail) (hdelim : ∀ c ∈ line, isDelimiter c = true)
    (env : Env) (w : World) :
    cysh_split_line b = some { line := b, tokens := [], buffersize := CYSH_TOK_BUFSIZE } ∧
      cysh_execute env b [] w = (1, b, w) := by
  refine ⟨?_, rfl⟩
  have hsplit : cysh_split_line b = splitFrom (b.cells.length + 1) b 0 [] CYSH_TOK_BUFSIZE := rfl
  have hst : strtok b 0 CYSH_TOK_DELIM = (none, b, 0 + line.length) :=
    strtok_none b [] line tail (by simpa using hcells) hdelim
  rw [hsplit, splitFrom_none _ _ _ _ _ _ _ hst]

/-- Witness of C4 on the line made of a space, a tab and a carriage return. -/
theorem C4_blank_line_is_no_op_witness :
    cysh_split_line ⟨1024, [' ', '\t', '\r', NUL], []⟩ =
        some { line := ⟨1024, [' ', '\t', '\r', NUL], []⟩, tokens := [],
               buffersize := CYSH_TOK_BUFSIZE } ∧
      cysh_execute quietEnv ⟨1024, [' ', '\t', '\r', NUL], []⟩ [] ⟨[], []⟩ =
        (1, ⟨1024, [' ', '\t', '\r', NUL], []⟩, ⟨[], []⟩) :=
  C4_blank_line_is_no_op ⟨1024, [' ', '\t', '\r', NUL], []⟩ [' ', '\t', '\r'] [] rfl
    (by decide) quietEnv ⟨[], []⟩

/-- C5: for every line without NUL, the tokens of `cysh_split_line`, joined by
single spaces and tokenized again, are the same tokens; and when the line is
already normalized (non-empty delimiter-free tokens separated by one space),
joining its tokens by single spaces gives back the line. -/
theorem C5_tokenize_round_trip (b : Block) (line tail : List Char)
    (hcells : b.cells = line ++ NUL :: tail) (hnul : ∀ c ∈ line, c ≠ NUL) :
    ∃ a, cysh_split_line b = some a ∧
      (∀ (b1 : Block) (tail1 : List Char),
        b1.cells = [' '].intercalate a.strings ++ NUL :: tail1 →
        ∃ a1, cysh_split_line b1 = some a1 ∧ a1.strings = a.strings) ∧
      (∀ ts : List (List Char), (∀ t ∈ ts, t ≠ [] ∧ ∀ c ∈ t, isDelimiter c = false) →
        line = [' '].intercalate ts → [' '].intercalate a.strings = line) := by
  obtain ⟨mid, newtoks, bs1, ov1, hres, _, hmap, _, _, _⟩ :=
    split_line_post b line tail hcells hnul
  have hstr : Argv.strings
      { line := { size := b.size, cells := [] ++ mid ++ NUL :: tail, overrun := ov1 },
        tokens := [] ++ newtoks, buffersize := bs1 } = maximalRuns line := by
    simpa [Argv.strings] using hmap
  have hprops := maximalRuns_props line.length line (le_refl _)
  refine ⟨_, hres, ?_, ?_⟩
  · intro b1 tail1 hb1
    have hnul1 : ∀ c ∈ [' '].intercalate (Argv.strings
        { line := { size := b.size, cells := [] ++ mid ++ NUL :: tail, overrun := ov1 },
          tokens := [] ++ newtoks, buffersize := bs1 }), c ≠ NUL := by
      apply intercalate_no_nul
      intro t ht c hc
      obtain ⟨q, _, rfl⟩ := List.mem_map.mp ht
      exact cstr_no_nul _ _ c hc
    rw [hstr] at hb1 hnul1 ⊢
    obtain ⟨mid1, newtoks1, bs2, ov2, hres1, _, hmap1, _, _, _⟩ :=
      split_line_post b1 _ tail1 hb1 hnul1
    refine ⟨_, hres1, ?_⟩
    rw [maximalRuns_intercalate _ hprops] at hmap1
    simpa [Argv.strings] using hmap1
  · intro ts hts hline
    rw [hstr, hline, maximalRuns_intercalate ts hts]

/-- Witness of C5 on the line ` ls   -l `. -/
theorem C5_tokenize_round_trip_witness :
    ∃ a, cysh_split_line ⟨1024, " ls   -l ".toList ++ [NUL], []⟩ = some a ∧
      (∀ (b1 : Block) (tail1 : List Char),
        b1.cells = [' '].intercalate a.strings ++ NUL :: tail1 →
        ∃ a1, cysh_split_line b1 = some a1 ∧ a1.strings = a.strings) ∧
      (∀ ts : List (List Char), (∀ t ∈ ts, t ≠ [] ∧ ∀ c ∈ t, isDelimiter c = false) →
        " ls   -l ".toList = [' '].intercalate ts →
        [' '].intercalate a.strings = " ls   -l ".toList) :=
  C5_tokenize_round_trip ⟨1024, " ls   -l ".toList ++ [NUL], []⟩ " ls   -l ".toList [] rfl
    (by decide)

theorem firstLine_replicate (n : Nat) (more : List Char) :
    firstLine (List.replicate n 'a' ++ more) = List.replicate n 'a' ++ firstLine more ∧
      afterFirstLine (List.replicate n 'a' ++ more) = afterFirstLine more := by
  have hall : ∀ c ∈ List.replicate n 'a', (decide (c ≠ '\n')) = true := by
    intro c hc
    rw [List.eq_of_mem_replicate hc]
    decide
  constructor
  · unfold firstLine
    rw [List.takeWhile_append_of_pos hall]
  · unfold afterFirstLine
    rw [List.dropWhile_append_of_pos hall]

/-- A line of `n` letters `a`, `n` at or above the limit, ends the process. -/
theorem read_line_letters (n : Nat) (more : List Char) (h : lineLimit ≤ n) :
    cysh_read_line (List.replicate n 'a' ++ more) = none := by
  apply read_line_long
  rw [(firstLine_replicate n more).1, List.length_append, List.length_replicate]
  omega

theorem read_line_letters_only (n : Nat) (h : lineLimit ≤ n) :
    cysh_read_line (List.replicate n 'a') = none := by
  have h1 := read_line_letters n [] h
  rwa [List.append_nil] at h1

/-- C6, counterexample: on an input of 2^31 - 1024 letters `a` the addition
`buffersize += 1024` wraps to a negative number, `realloc` returns NULL and
`cysh_read_line` ends the process instead of returning the line. -/
theorem C6_read_line_gives_up_on_long_line :
    cysh_read_line (List.replicate 2147482624 'a') = none :=
  read_line_letters_only 2147482624 (le_refl _)

/-- C6, amended: for every input stream whose first line has fewer than
2^31 - 1024 characters, `cysh_read_line` returns, and the block it returns holds
exactly the characters before the first newline (all of the stream when it has
none) followed by the terminating NUL; the newline is consumed with them and
nothing more; the block is larger than the line and no store went outside it.
The C string at the start of the block is the line up to its first NUL.  On a
longer first line the function does not return. -/
theorem C6_read_line_returns_first_line (stdin : List Char) :
    ((firstLine stdin).length < lineLimit →
      ∃ line, cysh_read_line stdin = some (line, afterFirstLine stdin) ∧
        line.cells = firstLine stdin ++ [NUL] ∧
        (firstLine stdin).length + 1 ≤ line.size ∧
        line.overrun = [] ∧
        cstr line.cells 0 = (firstLine stdin).takeWhile (fun c => c ≠ NUL)) ∧
      (lineLimit ≤ (firstLine stdin).length → cysh_read_line stdin = none) ∧
      (∀ c ∈ firstLine stdin, c ≠ '\n') ∧
      (stdin = firstLine stdin ++ '\n' :: afterFirstLine stdin ∨
        (stdin = firstLine stdin ∧ afterFirstLine stdin = [])) := by
  refine ⟨fun hshort => ?_, read_line_long stdin, firstLine_no_newline stdin,
    firstLine_split stdin⟩
  refine ⟨_, read_line_short stdin hshort, rfl, ?_, rfl, ?_⟩
  · simp only
    omega
  · obtain ⟨tail, htail⟩ := line_block_shape (firstLine stdin)
    simp only
    rw [htail]
    have := cstr_mid [] ((firstLine stdin).takeWhile (fun c => c ≠ NUL)) tail (by
      intro c hc
      simpa using List.mem_takeWhile_imp hc)
    simpa using this

/-- Witness of C6, amended: the input `ls -l`, newline, `exit`. -/
theorem C6_read_line_returns_first_line_witness :
    ∃ line, cysh_read_line "ls -l\nexit".toList = some (line, "exit".toList) ∧
      line.cells = "ls -l".toList ++ [NUL] ∧
      5 + 1 ≤ line.size ∧
      line.overrun = [] ∧
      cstr line.cells 0 = "ls -l".toList :=
  (C6_read_line_returns_first_line "ls -l\nexit".toList).1 (by decide)

/-- C7: for every non-empty path `p` not ending in a slash, `cysh_cd` on an
argument vector whose second string is `p` and on one whose second string is
`p/` returns CONTINUE and calls `chdir` with exactly `p/`: the two worlds are
the same.  In the first case `strcat` has made the argument `p/`; in the
second the line is left as it is. -/
theorem C7_cd_path_normalisation (env : Env) (w : World) (p : List Char)
    (line : Block) (args : List Nat) (a1 : Nat)
    (line2 : Block) (args2 : List Nat) (a2 : Nat)
    (hp : p ≠ []) (hlast : p.getLast? ≠ some '/')
    (harg : args.get? 1 = some a1) (hcs : cstr line.cells a1 = p)
    (harg2 : args2.get? 1 = some a2) (hcs2 : cstr line2.cells a2 = p ++ ['/']) :
    (cysh_cd env line args w).1 = 1 ∧
      (cysh_cd env line args w).2.2 = chdirWorld env (p ++ ['/']) w ∧
      cstr (cysh_cd env line args w).2.1.cells a1 = p ++ ['/'] ∧
      (cysh_cd env line2 args2 w).1 = 1 ∧
      (cysh_cd env line2 args2 w).2.2 = chdirWorld env (p ++ ['/']) w ∧
      (cysh_cd env line2 args2 w).2.1 = line2 := by
  rcases List.eq_nil_or_concat p with h | ⟨q, z, h⟩
  · exact absurd h hp
  · rw [List.concat_eq_append] at h
    subst h
    have hz : z ≠ '/' := by
      intro h
      apply hlast
      simp [h]
    obtain ⟨h1, h2⟩ := cd_plain env line args w a1 q z harg hcs hz
    have h3 := cd_slash env line2 args2 w a2 (q ++ [z]) harg2 hcs2
    rw [h1, h3]
    exact ⟨rfl, rfl, h2, rfl, rfl, rfl⟩

/-- Witness of C7: `cd tmp` and `cd tmp/`. -/
theorem C7_cd_path_normalisation_witness :
    (cysh_cd quietEnv ⟨1024, "cd".toList ++ NUL :: "tmp".toList ++ [NUL], []⟩ [0, 3]
        ⟨[], []⟩).1 = 1 ∧
      (cysh_cd quietEnv ⟨1024, "cd".toList ++ NUL :: "tmp".toList ++ [NUL], []⟩ [0, 3]
        ⟨[], []⟩).2.2 = chdirWorld quietEnv ("tmp".toList ++ ['/']) ⟨[], []⟩ ∧
      cstr (cysh_cd quietEnv ⟨1024, "cd".toList ++ NUL :: "tmp".toList ++ [NUL], []⟩ [0, 3]
        ⟨[], []⟩).2.1.cells 3 = "tmp".toList ++ ['/'] ∧
      (cysh_cd quietEnv ⟨1024, "cd".toList ++ NUL :: "tmp/".toList ++ [NUL], []⟩ [0, 3]
        ⟨[], []⟩).1 = 1 ∧
      (cysh_cd quietEnv ⟨1024, "cd".toList ++ NUL :: "tmp/".toList ++ [NUL], []⟩ [0, 3]
        ⟨[], []⟩).2.2 = chdirWorld quietEnv ("tmp".toList ++ ['/']) ⟨[], []⟩ ∧
      (cysh_cd quietEnv ⟨1024, "cd".toList ++ NUL :: "tmp/".toList ++ [NUL], []⟩ [0, 3]
        ⟨[], []⟩).2.1 = ⟨1024, "cd".toList ++ NUL :: "tmp/".toList ++ [NUL], []⟩ :=
  C7_cd_path_normalisation quietEnv ⟨[], []⟩ "tmp".toList
    ⟨1024, "cd".toList ++ NUL :: "tmp".toList ++ [NUL], []⟩ [0, 3] 3
    ⟨1024, "cd".toList ++ NUL :: "tmp/".toList ++ [NUL], []⟩ [0, 3] 3
    (by decide) (by decide) rfl (by decide) rfl (by decide)

/-- C8: for every argument vector made of the one token `cd`, `cysh_cd` (and so
`cysh_execute`) returns CONTINUE, leaves the line alone, and its only effect is
one write to the error stream: a single line that starts with the shell's name.
Nothing goes to standard output and `chdir` is not called. -/
theorem C8_cd_without_argument (env : Env) (line : Block) (arg0 : Nat) (w : World)
    (hcd : cstr line.cells arg0 = "cd".toList) :
    cysh_cd env line [arg0] w =
        (1, line, { stdin := w.stdin, trace := w.trace ++
          [.stderr "cysh: expected argument to \"cd\"\n".toList] }) ∧
      cysh_execute env line [arg0] w = cysh_cd env line [arg0] w ∧
      "cysh: expected argument to \"cd\"\n".toList.count '\n' = 1 ∧
      "cysh: expected argument to \"cd\"\n".toList.getLast? = some '\n' ∧
      "cysh: ".toList <+: "cysh: expected argument to \"cd\"\n".toList := by
  refine ⟨rfl, ?_, by decide, by decide, by decide⟩
  rw [execute_cons, if_pos hcd]

/-- Witness of C8: the line `cd`. -/
theorem C8_cd_without_argument_witness :
    cysh_cd quietEnv ⟨1024, "cd".toList ++ [NUL], []⟩ [0] ⟨[], []⟩ =
        (1, ⟨1024, "cd".toList ++ [NUL], []⟩, { stdin := [], trace := [] ++
          [.stderr "cysh: expected argument to \"cd\"\n".toList] }) ∧
      cysh_execute quietEnv ⟨1024, "cd".toList ++ [NUL], []⟩ [0] ⟨[], []⟩ =
        cysh_cd quietEnv ⟨1024, "cd".toList ++ [NUL], []⟩ [0] ⟨[], []⟩ ∧
      "cysh: expected argument to \"cd\"\n".toList.count '\n' = 1 ∧
      "cysh: expected argument to \"cd\"\n".toList.getLast? = some '\n' ∧
      "cysh: ".toList <+: "cysh: expected argument to \"cd\"\n".toList :=
  C8_cd_without_argument quietEnv ⟨1024, "cd".toList ++ [NUL], []⟩ 0 ⟨[], []⟩ (by decide)

/-! ### The scenario of C9 -/

theorem round_help (env : Env) (trace : List Event) :
    cysh_loop_body env ⟨"help\ncd /tmp\nexit\n".toList, trace⟩ =
      some (.done (1, ⟨"cd /tmp\nexit\n".toList, promptTrace env trace ++ helpBanner⟩)) := by
  have hread : cysh_read_line "help\ncd /tmp\nexit\n".toList =
      some (⟨1024, "help".toList ++ [NUL], []⟩, "cd /tmp\nexit\n".toList) := by decide
  have hsplit : cysh_split_line ⟨1024, "help".toList ++ [NUL], []⟩ =
      some ⟨⟨1024, "help".toList ++ [NUL], []⟩, [0], 64⟩ := by decide
  rw [loop_body_eq env _ _ _ _ hread hsplit, execute_cons,
    if_neg (by decide), if_pos (by decide), help_world]
  rfl

theorem round_cd (env : Env) (trace : List Event)
    (hok : ∀ tr, env.chdir tr "/tmp/".toList = true) :
    cysh_loop_body env ⟨"cd /tmp\nexit\n".toList, trace⟩ =
      some (.done (1, ⟨"exit\n".toList,
        promptTrace env trace ++ [.chdir "/tmp/".toList true]⟩)) := by
  have hread : cysh_read_line "cd /tmp\nexit\n".toList =
      some (⟨1024, "cd /tmp".toList ++ [NUL], []⟩, "exit\n".toList) := by decide
  have hsplit : cysh_split_line ⟨1024, "cd /tmp".toList ++ [NUL], []⟩ =
      some ⟨⟨1024, "cd".toList ++ NUL :: "/tmp".toList ++ [NUL], []⟩, [0, 3], 64⟩ := by
    decide
  have hcd := cd_plain env ⟨1024, "cd".toList ++ NUL :: "/tmp".toList ++ [NUL], []⟩ [0, 3]
    ⟨"exit\n".toList, promptTrace env trace⟩ 3 "/tm".toList 'p' rfl (by decide) (by decide)
  rw [loop_body_eq env _ _ _ _ hread hsplit, execute_cons, if_pos (by decide), hcd.1]
  have hpath : "/tm".toList ++ ['p'] ++ ['/'] = "/tmp/".toList := by decide
  simp only [chdirWorld, hpath, hok, if_true]
  rfl

theorem round_exit (env : Env) (trace : List Event) :
    cysh_loop_body env ⟨"exit\n".toList, trace⟩ =
      some (.done (0, ⟨[], promptTrace env trace⟩)) := by
  have hread : cysh_read_line "exit\n".toList =
      some (⟨1024, "exit".toList ++ [NUL], []⟩, []) := by
    decide
  have hsplit : cysh_split_line ⟨1024, "exit".toList ++ [NUL], []⟩ =
      some ⟨⟨1024, "exit".toList ++ [NUL], []⟩, [0], 64⟩ := by decide
  rw [loop_body_eq env _ _ _ _ hread hsplit, execute_cons,
    if_neg (by decide), if_neg (by decide), if_pos (by decide)]
  rfl

theorem scenarioTrace_events (env : Env) :
    ∀ e ∈ scenarioTrace env, (∃ text, e = Event.stdout text) ∨
      e = Event.chdir "/tmp/".toList true := by
  obtain ⟨m1, h1, hm1⟩ := promptTrace_events env []
  obtain ⟨m2, h2, hm2⟩ := promptTrace_events env (promptTrace env [] ++ helpBanner)
  obtain ⟨m3, h3, hm3⟩ := promptTrace_events env
    (promptTrace env (promptTrace env [] ++ helpBanner) ++ [.chdir "/tmp/".toList true])
  intro e he
  unfold scenarioTrace at he
  rw [h3, h2, h1] at he
  simp only [List.nil_append, List.mem_append, List.mem_singleton] at he
  rcases he with (((he | he) | he) | he) | he
  · exact Or.inl (hm1 e he)
  · left
    simp only [helpBanner, List.mem_cons, List.mem_singleton, List.not_mem_nil, or_false] at he
    rcases he with rfl | rfl | rfl | rfl | rfl | rfl | rfl <;> exact ⟨_, rfl⟩
  · exact Or.inl (hm2 e he)
  · exact Or.inr he
  · exact Or.inl (hm3 e he)

/-- The input of `n` letters `a`, a newline, and the line `exit`, for `n` at or
above the limit: its second line has `exit` as first token and its first has
not, and the loop never returns on it: the first round ends the process. -/
theorem long_line_before_exit (n : Nat) (h : lineLimit ≤ n) :
    (nextCommand (dropLines 0 (List.replicate n 'a' ++ "\nexit\n".toList))).head? ≠
        some "exit".toList ∧
      (nextCommand (dropLines 1 (List.replicate n 'a' ++ "\nexit\n".toList))).head? =
        some "exit".toList ∧
      ¬ ∃ fuel w1, cysh_loop quietEnv fuel
          ⟨List.replicate n 'a' ++ "\nexit\n".toList, []⟩ = some (.done w1) := by
  obtain ⟨hfirst, hafter⟩ := firstLine_replicate n "\nexit\n".toList
  have hf1 : firstLine "\nexit\n".toList = [] := by decide
  have ha1 : afterFirstLine "\nexit\n".toList = "exit\n".toList := by decide
  rw [hf1, List.append_nil] at hfirst
  rw [ha1] at hafter
  obtain ⟨m, rfl⟩ : ∃ m, n = m + 1 := ⟨n - 1, by unfold lineLimit at h; omega⟩
  refine ⟨?_, ?_, ?_⟩
  · have hnn : ∀ c ∈ List.replicate (m + 1) 'a', c ≠ NUL := by
      intro c hc
      rw [List.eq_of_mem_replicate hc]
      decide
    have hnd : ∀ c ∈ List.replicate (m + 1) 'a', isDelimiter c = false := by
      intro c hc
      rw [List.eq_of_mem_replicate hc]
      decide
    have htw : (List.replicate (m + 1) 'a').takeWhile (fun c => c ≠ NUL) =
        List.replicate (m + 1) 'a' := by
      apply List.takeWhile_eq_self_iff.mpr
      intro c hc
      simpa using hnn c hc
    show (nextCommand (List.replicate (m + 1) 'a' ++ "\nexit\n".toList)).head? ≠ _
    rw [nextCommand, hfirst, htw, maximalRuns_single _ (by simp) hnd, List.replicate_succ]
    intro habs
    simp at habs
  · show (nextCommand (afterFirstLine (List.replicate (m + 1) 'a' ++ "\nexit\n".toList))).head?
      = _
    rw [hafter]
    decide
  · rintro ⟨fuel, w1, hloop⟩
    cases fuel with
    | zero => simp [cysh_loop] at hloop
    | succ f =>
      have hbody := loop_body_long quietEnv
        ⟨List.replicate (m + 1) 'a' ++ "\nexit\n".toList, []⟩
        (by
          show lineLimit ≤ (firstLine (List.replicate (m + 1) 'a' ++ "\nexit\n".toList)).length
          rw [hfirst, List.length_replicate]
          exact h)
      rw [loop_exit quietEnv f _ _ _ hbody] at hloop
      simp at hloop

/-- C9, counterexample.  First: the input of 2^31 - 1024 letters `a` followed
by the line `exit` has `exit` as the first token of its second line and of no
line before, and the loop does not stop after that line: it never returns, the
process ends in `cysh_read_line`.  Second: with standard input a file, the
`exit` of the child that could not run `nope` moves the file back, and on the
input `nope`, `help` the shell prints its help banner in two rounds, though the
input has the line `help` once. -/
theorem C9_lines_not_always_in_order :
    ((nextCommand (dropLines 0 (List.replicate 2147482624 'a' ++ "\nexit\n".toList))).head? ≠
        some "exit".toList ∧
      (nextCommand (dropLines 1 (List.replicate 2147482624 'a' ++ "\nexit\n".toList))).head? =
        some "exit".toList ∧
      ¬ ∃ fuel w1, cysh_loop quietEnv fuel
          ⟨List.replicate 2147482624 'a' ++ "\nexit\n".toList, []⟩ = some (.done w1)) ∧
    ∃ w1 w2 w3,
      cysh_loop_body rewindEnv ⟨"nope\nhelp\n".toList, []⟩ = some (.done (1, w1)) ∧
      cysh_loop_body rewindEnv w1 = some (.done (1, w2)) ∧
      cysh_loop_body rewindEnv w2 = some (.done (1, w3)) ∧
      w3.stdin = [] ∧ w3.trace.count (.stdout "Cyklan's CySH\n".toList) = 2 := by
  refine ⟨long_line_before_exit 2147482624 (le_refl _), _, _, _, rfl, rfl, rfl, ?_, ?_⟩ <;>
    decide

/-- C9, amended.  As long as launches leave the input of the shell alone and
the lines are shorter than 2^31 - 1024 characters, the loop handles the input
line by line and stops right after the first line whose first token is `exit`:
it returns in round `k + 1`, not before, with the rest of the input unread.  A
round on a line below that length returns with status TERMINATE exactly for the
first token `exit`; when the line is empty or starts with a built-in it
launches nothing and has read exactly that line.  For the input `help`,
`cd /tmp`, `exit`, with `chdir` succeeding, the loop returns in its third
round, and the effects are, in this order: the prompt and the help banner
(naming `cd`, `help`, `exit`), the prompt and one successful
`chdir ("/tmp/")`, the prompt; every effect is a write to standard output or
that `chdir`, so nothing goes to the error stream and no process is launched. -/
theorem C9_loop_runs_lines_in_order :
    (∀ (env : Env) (k : Nat) (w : World), InputUntouched env →
      (∀ i ≤ k, (firstLine (dropLines i w.stdin)).length < lineLimit) →
      (∀ i < k, (nextCommand (dropLines i w.stdin)).head? ≠ some "exit".toList) →
      (nextCommand (dropLines k w.stdin)).head? = some "exit".toList →
      (∃ w1, cysh_loop env (k + 1) w = some (.done w1) ∧
          w1.stdin = dropLines (k + 1) w.stdin) ∧
        cysh_loop env k w = none) ∧
    (∀ (env : Env) (w : World), (firstLine w.stdin).length < lineLimit →
      ∃ status w1, cysh_loop_body env w = some (.done (status, w1)) ∧
        (status = 0 ↔ (nextCommand w.stdin).head? = some "exit".toList) ∧
        (status = 0 ∨ status = 1) ∧
        ((∀ name, (nextCommand w.stdin).head? = some name → name ∈ builtin_str) →
          w1.stdin = afterFirstLine w.stdin ∧
            w1.trace.filter isLaunch = w.trace.filter isLaunch) ∧
        (InputUntouched env → w1.stdin = afterFirstLine w.stdin)) ∧
    (∀ env : Env, (∀ tr, env.chdir tr "/tmp/".toList = true) →
      cysh_loop env 3 ⟨"help\ncd /tmp\nexit\n".toList, []⟩ =
        some (.done ⟨[], scenarioTrace env⟩) ∧
      cysh_loop env 2 ⟨"help\ncd /tmp\nexit\n".toList, []⟩ = none ∧
      ∀ e ∈ scenarioTrace env, (∃ text, e = Event.stdout text) ∨
        e = Event.chdir "/tmp/".toList true) ∧
    scenarioTrace quietEnv =
      [.stdout "/> ".toList,
       .stdout "Cyklan's CySH\n".toList,
       .stdout "Type program names and arguments, and hit enter\n".toList,
       .stdout "The follwing commands are built in:\n".toList,
       .stdout "\tcd\n".toList, .stdout "\thelp\n".toList, .stdout "\texit\n".toList,
       .stdout "Use the man command for information on other programs.\n".toList,
       .stdout "/> ".toList,
       .chdir "/tmp/".toList true,
       .stdout "/> ".toList] := by
  refine ⟨fun env k w hu => loop_stops_at env hu k w, fun env w => loop_body_spec env w,
    ?_, ?_⟩
  · intro env hok
    refine ⟨?_, ?_, scenarioTrace_events env⟩
    · rw [loop_continue env 2 _ _ 1 (round_help env []) (by decide),
        loop_continue env 1 _ _ 1 (round_cd env _ hok) (by decide),
        loop_stop env 0 _ _ (round_exit env _)]
      rfl
    · rw [loop_continue env 1 _ _ 1 (round_help env []) (by decide),
        loop_continue env 0 _ _ 1 (round_cd env _ hok) (by decide)]
      rfl
  · decide

/-- Witness of C9, amended: on the input `cd`, `exit`, in an operating system
whose launches leave the input alone, the loop returns in its second round. -/
theorem C9_loop_runs_lines_in_order_witness :
    (∃ w1, cysh_loop quietEnv (1 + 1) ⟨"cd\nexit\nls\n".toList, []⟩ = some (.done w1) ∧
        w1.stdin = dropLines (1 + 1) "cd\nexit\nls\n".toList) ∧
      cysh_loop quietEnv 1 ⟨"cd\nexit\nls\n".toList, []⟩ = none :=
  C9_loop_runs_lines_in_order.1 quietEnv 1 ⟨"cd\nexit\nls\n".toList, []⟩
    (fun _ _ _ _ _ _ _ h => by
      simp only [quietEnv, Spawn.child.injEq] at h
      exact h.2.2.2.symm)
    (by
      intro i hi
      have : i = 0 ∨ i = 1 := by omega
      rcases this with rfl | rfl <;> unfold lineLimit <;> decide)
    (by
      intro i hi
      have : i = 0 := by omega
      subst this
      decide)
    (by decide)

/-! ### The line `cd <argument>` in memory -/

/-- The line `cd x`, for an argument `x` that is one token not ending in a
slash, from standard input to the stores of `cysh_cd`: the block has 1024 bytes
for each started 1024 bytes of the line and its NUL, the argument ends where
the line ends, and `strcat` writes the slash over the NUL of the line and the
new NUL one byte further. -/
theorem cd_line (env : Env) (w : World) (x q rest : List Char) (z : Char)
    (hx : x = q ++ [z]) (hz : z ≠ '/') (hnd : ∀ c ∈ x, isDelimiter c = false)
    (hnn : ∀ c ∈ x, c ≠ NUL) (hlen : x.length + 3 < lineLimit) :
    cysh_read_line ("cd ".toList ++ x ++ '\n' :: rest) =
        some (⟨1024 * ((x.length + 3) / 1024 + 1), "cd ".toList ++ x ++ [NUL], []⟩, rest) ∧
      cysh_split_line ⟨1024 * ((x.length + 3) / 1024 + 1), "cd ".toList ++ x ++ [NUL], []⟩ =
        some ⟨⟨1024 * ((x.length + 3) / 1024 + 1), "cd".toList ++ NUL :: x ++ [NUL], []⟩,
          [0, 3], 64⟩ ∧
      (cysh_cd env ⟨1024 * ((x.length + 3) / 1024 + 1), "cd".toList ++ NUL :: x ++ [NUL], []⟩
          [0, 3] w).2.1 =
        ⟨1024 * ((x.length + 3) / 1024 + 1), "cd".toList ++ NUL :: x ++ ['/', NUL],
          if x.length + 4 < 1024 * ((x.length + 3) / 1024 + 1) then [] else [x.length + 4]⟩ := by
  have hnl : ∀ c ∈ "cd ".toList ++ x, c ≠ '\n' := by
    intro c hc
    rcases List.mem_append.mp hc with hc | hc
    · have hcd : ∀ c ∈ "cd ".toList, c ≠ '\n' := by decide
      exact hcd c hc
    · intro h
      have := hnd c hc
      rw [h] at this
      exact absurd this (by decide)
  have hfirst : firstLine ("cd ".toList ++ x ++ '\n' :: rest) = "cd ".toList ++ x := by
    unfold firstLine
    rw [List.takeWhile_append_of_pos (by simpa using hnl)]
    simp
  have hafter : afterFirstLine ("cd ".toList ++ x ++ '\n' :: rest) = rest := by
    unfold afterFirstLine
    rw [List.dropWhile_append_of_pos (by simpa using hnl)]
    simp
  have hsize : 1024 * ((x.length + 3) / 1024 + 1) ≥ x.length + 4 := by omega
  refine ⟨?_, ?_, ?_⟩
  · have hl : ("cd ".toList ++ x).length = x.length + 3 := by
      simp only [List.length_append, String.toList, List.length_cons, List.length_nil]
      omega
    rw [read_line_short _ (by rw [hfirst, hl]; exact hlen), hfirst, hafter, hl]
  · have hsplit : ∀ b : Block,
        cysh_split_line b = splitFrom (b.cells.length + 1) b 0 [] CYSH_TOK_BUFSIZE :=
      fun _ => rfl
    have hfuel : ("cd ".toList ++ x ++ [NUL]).length + 1 = x.length + 2 + 1 + 1 + 1 := by
      simp only [List.length_append, String.toList, List.length_cons, List.length_nil]
      omega
    have h1a := strtok_some (1024 * ((x.length + 3) / 1024 + 1)) [] [] [] "cd".toList
      (x ++ [NUL]) ' ' (by simp) (by decide) (by decide) (by decide) (Or.inr (by decide))
    rw [if_neg (by decide), if_pos (by
      simp only [List.length_nil, String.toList, List.length_cons]
      omega)] at h1a
    have h1 : strtok ⟨1024 * ((x.length + 3) / 1024 + 1), "cd ".toList ++ x ++ [NUL], []⟩ 0
        CYSH_TOK_DELIM =
        (some 0, ⟨1024 * ((x.length + 3) / 1024 + 1), "cd".toList ++ NUL :: x ++ [NUL], []⟩,
          3) := h1a
    have h2a := strtok_some (1024 * ((x.length + 3) / 1024 + 1)) [] ("cd".toList ++ [NUL]) []
      x [] NUL (by simp) (by rw [hx]; simp) hnd hnn (Or.inl rfl)
    rw [if_pos rfl] at h2a
    have h2 : strtok ⟨1024 * ((x.length + 3) / 1024 + 1), "cd".toList ++ NUL :: x ++ [NUL], []⟩
        3 CYSH_TOK_DELIM =
        (some 3, ⟨1024 * ((x.length + 3) / 1024 + 1), "cd".toList ++ NUL :: x ++ [NUL], []⟩,
          3 + x.length) := h2a
    have h3a := strtok_none
      ⟨1024 * ((x.length + 3) / 1024 + 1), "cd".toList ++ NUL :: x ++ [NUL], []⟩
      ("cd".toList ++ [NUL] ++ x) [] [] (by simp) (by simp)
    have hlen3 : ("cd".toList ++ [NUL] ++ x).length = 3 + x.length := by
      simp only [List.length_append, String.toList, List.length_cons, List.length_nil]
    rw [hlen3] at h3a
    rw [hsplit, hfuel, splitFrom_some _ _ _ _ _ _ _ _ h1, splitFrom_some _ _ _ _ _ _ _ _ h2,
      splitFrom_none _ _ _ _ _ _ _ h3a]
    rfl
  · have hcs : cstr ("cd".toList ++ [NUL] ++ x ++ [NUL]) ("cd".toList ++ [NUL]).length = x :=
      cstr_mid ("cd".toList ++ [NUL]) x [] hnn
    have hcat := strcat_slash (1024 * ((x.length + 3) / 1024 + 1)) ("cd".toList ++ [NUL]) x
      [NUL] [] hcs
    have hcells : "cd".toList ++ NUL :: x ++ [NUL] = "cd".toList ++ [NUL] ++ x ++ [NUL] := by
      simp
    have hcd := cd_plain env
      ⟨1024 * ((x.length + 3) / 1024 + 1), "cd".toList ++ [NUL] ++ x ++ [NUL], []⟩ [0, 3] w
      ("cd".toList ++ [NUL]).length q z rfl (by rw [← hx]; exact hcs) hz
    rw [hcells]
    have h3 : ("cd".toList ++ [NUL]).length = 3 := rfl
    rw [h3] at hcd hcat
    rw [hcd.1, hcat]
    simp only [List.drop_succ_cons, List.drop_nil, List.nil_append, Block.mk.injEq, true_and]
    constructor
    · simp
    · rw [if_pos (show 3 + x.length < 1024 * ((x.length + 3) / 1024 + 1) by omega)]
      by_cases h4 : x.length + 4 < 1024 * ((x.length + 3) / 1024 + 1)
      · rw [if_pos h4, if_pos (by omega)]
      · rw [if_neg h4, if_neg (by omega)]
        simp
        omega

/-- C10, at the failing input: the line `cd ` followed by 1020 letters `a` is
1023 characters long, its block has 1024 bytes and its NUL sits in the last of
them; the tokens are `cd` and the 1020 letters; `cysh_cd` then stores at index
1024, one byte behind the block. -/
theorem C10_cd_append_overruns_block :
    cysh_read_line ("cd ".toList ++ List.replicate 1020 'a' ++ ['\n']) =
        some (⟨1024, "cd ".toList ++ List.replicate 1020 'a' ++ [NUL], []⟩, []) ∧
      ("cd ".toList ++ List.replicate 1020 'a' ++ [NUL]).length = 1024 ∧
      cysh_split_line ⟨1024, "cd ".toList ++ List.replicate 1020 'a' ++ [NUL], []⟩ =
        some ⟨⟨1024, "cd".toList ++ NUL :: List.replicate 1020 'a' ++ [NUL], []⟩,
          [0, 3], 64⟩ ∧
      (cysh_cd quietEnv ⟨1024, "cd".toList ++ NUL :: List.replicate 1020 'a' ++ [NUL], []⟩
          [0, 3] ⟨[], []⟩).2.1 =
        ⟨1024, "cd".toList ++ NUL :: List.replicate 1020 'a' ++ ['/', NUL], [1024]⟩ := by
  have hmem : ∀ c ∈ List.replicate 1020 'a', c = 'a' := fun c hc => List.eq_of_mem_replicate hc
  have hrep : List.replicate 1020 'a' = List.replicate 1019 'a' ++ ['a'] :=
    List.replicate_succ' 1019 'a'
  have h := cd_line quietEnv ⟨[], []⟩ (List.replicate 1020 'a') (List.replicate 1019 'a') []
    'a' hrep (by decide)
    (fun c hc => by rw [hmem c hc]; decide) (fun c hc => by rw [hmem c hc]; decide)
    (by rw [List.length_replicate]; unfold lineLimit; omega)
  have hsz : 1024 * ((1020 + 3) / 1024 + 1) = 1024 := by decide
  have hif : (if 1020 + 4 < 1024 then ([] : List Nat) else [1020 + 4]) = [1024] := by decide
  rw [List.length_replicate, hsz, hif] at h
  refine ⟨h.1, ?_, h.2.1, h.2.2⟩
  simp only [List.length_append, List.length_replicate, String.toList, List.length_cons,
    List.length_nil]

/-- C1, counterexample: the empty input has no line whose first token is
`exit`, and on it the loop neither returns nor ends the process, whatever the
number of rounds. -/
theorem C1_end_of_input_does_not_stop_loop :
    (¬ ∃ k, (nextCommand (dropLines k [])).head? = some "exit".toList) ∧
      ¬ ∃ fuel, cysh_loop quietEnv fuel ⟨[], []⟩ ≠ none := by
  constructor
  · rintro ⟨k, hk⟩
    have hdrop : ∀ n, dropLines n [] = [] := by
      intro n
      induction n with
      | zero => rfl
      | succ n ih => exact ih
    rw [hdrop] at hk
    revert hk
    decide
  · rintro ⟨fuel, h⟩
    exact h (loop_exhausted quietEnv fuel ⟨[], []⟩ rfl)

/-- C1, amended: the end of the input does not stop the loop.  With the input
used up, a round reads the empty line, prints only the prompt, has status
CONTINUE and leaves the input used up, so the loop has neither returned nor
ended the process after any number of rounds.  As long as launches leave the
input of the shell alone and its lines are shorter than 2^31 - 1024 characters,
`cysh_loop` returns exactly when some line of the input has `exit` as its first
token. -/
theorem C1_loop_returns_iff_exit_line (env : Env) (w : World) :
    (w.stdin = [] →
        cysh_loop_body env w = some (.done (1, ⟨[], promptTrace env w.trace⟩)) ∧
          ∀ fuel, cysh_loop env fuel w = none) ∧
      (InputUntouched env →
        (∀ i, (firstLine (dropLines i w.stdin)).length < lineLimit) →
        ((∃ fuel w1, cysh_loop env fuel w = some (.done w1)) ↔
          ∃ k, (nextCommand (dropLines k w.stdin)).head? = some "exit".toList)) :=
  ⟨fun h => ⟨loop_body_exhausted env w h, fun fuel => loop_exhausted env fuel w h⟩,
    fun hu hshort => loop_returns_iff env hu w hshort⟩

/-- Witness of C1, amended: with the input used up, the round in the quiet
operating system prints the prompt and the loop does not return in 5 rounds. -/
theorem C1_loop_returns_iff_exit_line_witness :
    cysh_loop_body quietEnv ⟨[], []⟩ = some (.done (1, ⟨[], promptTrace quietEnv []⟩)) ∧
      cysh_loop quietEnv 5 ⟨[], []⟩ = none :=
  ⟨((C1_loop_returns_iff_exit_line quietEnv ⟨[], []⟩).1 rfl).1,
    ((C1_loop_returns_iff_exit_line quietEnv ⟨[], []⟩).1 rfl).2 5⟩

end Cysh
